import Mathlib

/-! Programs of `src/ch2` and `src/ch4`.

Shallow embeddings of `src/ch2/tcp-scanner-final/main.go` (namespace
`TcpScannerFinal`), `src/ch2/tcp-scanner-wg-too-fast/main.go` (`TcpScannerWg`),
`src/ch2/tcp-sync-scanner/main.go` (`TcpSyncScanner`),
`src/ch2/tcp-scanner-too-fast/main.go` (`TcpScannerTooFast`),
`src/ch2/tcp-scanner-slow/main.go` (`TcpScannerSlow`),
`src/ch2/echo-server/main.go` (`EchoServer`), `src/ch4/simple_router/main.go`
(`SimpleRouter`) and `src/ch2/io-example/main.go` (`IoExample`).

* The sequential pieces (the body of `workerMultiChannel`, the result-gathering
  loop, the final sort and the printing loop, the sequential scanner, the handlers)
  are plain functions.
* Each concurrent program (its goroutines, its channels, its WaitGroup) is an
  interleaving transition system: a computable function `step` that fires one
  action of one goroutine on a state.

Values carried by the channels are Go `int`s and are modelled by `Int`; loop
counters that only count (never travel on a channel) are `Nat`; bytes are `Nat`.
The outcome of `net.Dial` is a parameter `dial : Int → Bool` (`true` when
`err == nil`); what a connection or standard input delivers, and whether a write
succeeds, are parameters as well.

The definitions of all the programs come first, the theorems after them.
-/

namespace TcpScannerFinal

/-! ## Sequential pieces -/

/-- Library function `sort.Ints` (ascending sort of a slice of ints), by its contract. -/
def sortInts (xs : List Int) : List Int :=
  xs.insertionSort (· ≤ ·)

/-- Function `workerMultiChannel` (lines 9-20) run alone on the sequence of items it
receives from `ports` until that channel is closed; `results` is the sequence of
values it has published so far, and the returned list is that sequence when the
loop ends. -/
def workerMultiChannel (dial : Int → Bool) : List Int → List Int → List Int
  | [], results => results
  | p :: ports, results =>
      if dial p = false then
        -- err != nil: `results <- 0; continue`
        workerMultiChannel dial ports (results ++ [0])
      else
        -- `conn.Close(); results <- p`
        workerMultiChannel dial ports (results ++ [p])

/-- One iteration of the result-gathering loop (lines 38-41): `port` is the value
just received from `results`. -/
def gatherIter (openPorts : List Int) (port : Int) : List Int :=
  if port ≠ 0 then openPorts ++ [port] else openPorts

/-- The result-gathering loop `for i := 0; i < n; i++` (lines 37-42) fed with the
sequence of values that arrive on `results`.  `i` counts the iterations still to
run.  The receive blocks for ever when nothing more arrives: `none`. -/
def gatherLoop : Nat → List Int → List Int → Option (List Int)
  | 0, _, openPorts => some openPorts
  | _ + 1, [], _ => none
  | i + 1, port :: results, openPorts => gatherLoop i results (gatherIter openPorts port)

/-- The printing loop (lines 47-49): the ports printed, one per line, in order. -/
def printLoop : List Int → List Int → List Int
  | [], printed => printed
  | port :: openPorts, printed => printLoop openPorts (printed ++ [port])

/-- Lines 37-49 of `multiPortScanConcurrentlyUsingMultipleChannels` as a function of
the sequence of values received on `results`: the list of ports printed. -/
def scanReport (n : Nat) (arrivals : List Int) : Option (List Int) :=
  match gatherLoop n arrivals [] with
  | none => none
  | some openPorts => some (printLoop (sortInts openPorts) [])

/-! ## The concurrent program -/

/-- The constants of the program: the bound `cap(ports)` of the loop that starts the
workers (line 27), the capacity of `ports` (line 23), and the number of items
(lines 32 and 37). -/
structure Config where
  workers : Nat
  capacity : Nat
  count : Nat
  deriving DecidableEq

/-- The constants as written in the source: `make(chan int, 100)`, `cap(ports)`
workers, 1024 items. -/
def scanConfig : Config :=
  { workers := 100, capacity := 100, count := 1024 }

/-- Control point of one `workerMultiChannel` goroutine. -/
inductive Worker where
  /-- At `for p := range ports`, about to receive. -/
  | recv
  /-- Holds item `p`, about to call `net.Dial`. -/
  | dial (p : Int)
  /-- Holds item `p`, about to execute `results <- v`. -/
  | send (p v : Int)
  /-- The loop has ended and the function has returned. -/
  | done
  /-- Run-time panic: send on a closed channel. -/
  | panicked
  deriving DecidableEq

/-- Control point of the feeder goroutine (lines 31-35); its loop variable is the
field `next` of the state. -/
inductive Feeder where
  | notStarted
  | running
  | done
  /-- Run-time panic: send on a closed channel. -/
  | panicked
  deriving DecidableEq

/-- Control point of the main goroutine inside
`multiPortScanConcurrentlyUsingMultipleChannels`. -/
inductive MainPc where
  /-- Line 27, loop variable `i`. -/
  | spawn (i : Nat)
  /-- Line 31. -/
  | goFeeder
  /-- Line 37, loop variable `i`. -/
  | gather (i : Nat)
  /-- Line 44. -/
  | closePorts
  /-- Line 45. -/
  | closeResults
  /-- Line 46. -/
  | sorting
  /-- Line 47, index `j` into `openPorts`. -/
  | print (j : Nat)
  /-- Line 50. -/
  | returned
  /-- Run-time panic: close of a closed channel. -/
  | panicked
  deriving DecidableEq

/-- A state of the running program.  `published`, `arrived` and `served` are history
variables: the items the feeder has sent on `ports` so far, in order; the values
that `port := <-results` has received so far, in order; and the items those values
are the results of.  `printed` is the output. -/
structure State where
  buf : List Int
  portsClosed : Bool
  resultsClosed : Bool
  workers : List Worker
  feeder : Feeder
  next : Nat
  published : List Int
  pc : MainPc
  arrived : List Int
  served : List Int
  openPorts : List Int
  printed : List Int
  deriving DecidableEq

/-- State on entry of `multiPortScanConcurrentlyUsingMultipleChannels`, after the
two `make` and the declaration of `openPorts`. -/
def State.start : State :=
  { buf := [], portsClosed := false, resultsClosed := false, workers := [],
    feeder := Feeder.notStarted, next := 1, published := [], pc := MainPc.spawn 0,
    arrived := [], served := [], openPorts := [], printed := [] }

/-- What can happen next: a goroutine moves alone, or two goroutines meet on a channel. -/
inductive Action where
  /-- The main goroutine executes its next statement. -/
  | main
  /-- The feeder executes its next statement (a send goes into the buffer). -/
  | feeder
  /-- The feeder's send is received directly by worker `k`, waiting on the empty channel. -/
  | handoff (k : Nat)
  /-- Worker `k` executes its next statement (a receive takes from the buffer). -/
  | worker (k : Nat)
  /-- The send `results <- v` of worker `k` meets the receive `<-results` of main. -/
  | deliver (k : Nat)
  deriving DecidableEq

/-- A step of the main goroutine (lines 27-50).  The receive on the unbuffered
`results` needs a sender (action `deliver`) unless the channel is closed, in
which case it yields the zero value. -/
def mainStep (cfg : Config) (s : State) : Option State :=
  match s.pc with
  | MainPc.spawn i =>
      if i < cfg.workers then
        some { s with workers := s.workers ++ [Worker.recv], pc := MainPc.spawn (i + 1) }
      else some { s with pc := MainPc.goFeeder }
  | MainPc.goFeeder => some { s with feeder := Feeder.running, next := 1, pc := MainPc.gather 0 }
  | MainPc.gather i =>
      if i < cfg.count then
        if s.resultsClosed then
          some { s with arrived := s.arrived ++ [0], openPorts := gatherIter s.openPorts 0,
                        pc := MainPc.gather (i + 1) }
        else none
      else some { s with pc := MainPc.closePorts }
  | MainPc.closePorts =>
      if s.portsClosed then some { s with pc := MainPc.panicked }
      else some { s with portsClosed := true, pc := MainPc.closeResults }
  | MainPc.closeResults =>
      if s.resultsClosed then some { s with pc := MainPc.panicked }
      else some { s with resultsClosed := true, pc := MainPc.sorting }
  | MainPc.sorting => some { s with openPorts := sortInts s.openPorts, pc := MainPc.print 0 }
  | MainPc.print j =>
      match s.openPorts[j]? with
      | some port => some { s with printed := s.printed ++ [port], pc := MainPc.print (j + 1) }
      | none => some { s with pc := MainPc.returned }
  | MainPc.returned => none
  | MainPc.panicked => none

/-- A step of the feeder goroutine (lines 32-34) that needs no partner. -/
def feederStep (cfg : Config) (s : State) : Option State :=
  match s.feeder with
  | Feeder.running =>
      if s.next ≤ cfg.count then
        if s.portsClosed then some { s with feeder := Feeder.panicked }
        else if s.buf.length < cfg.capacity then
          some { s with buf := s.buf ++ [(s.next : Int)], next := s.next + 1,
                        published := s.published ++ [(s.next : Int)] }
        else none
      else some { s with feeder := Feeder.done }
  | _ => none

/-- The send `ports <- i` handed to worker `k`, which waits on the empty channel. -/
def handoffStep (cfg : Config) (k : Nat) (s : State) : Option State :=
  match s.feeder, s.workers[k]?, s.buf with
  | Feeder.running, some Worker.recv, [] =>
      if s.next ≤ cfg.count ∧ s.portsClosed = false then
        some { s with workers := s.workers.set k (Worker.dial (s.next : Int)),
                      next := s.next + 1, published := s.published ++ [(s.next : Int)] }
      else none
  | _, _, _ => none

/-- A step of worker `k` (lines 10-19) that needs no partner. -/
def workerStep (dial : Int → Bool) (k : Nat) (s : State) : Option State :=
  match s.workers[k]? with
  | some Worker.recv =>
      match s.buf with
      | p :: rest => some { s with buf := rest, workers := s.workers.set k (Worker.dial p) }
      | [] =>
          if s.portsClosed then some { s with workers := s.workers.set k Worker.done }
          else none
  | some (Worker.dial p) =>
      if dial p = false then some { s with workers := s.workers.set k (Worker.send p 0) }
      else some { s with workers := s.workers.set k (Worker.send p p) }
  | some (Worker.send _ _) =>
      if s.resultsClosed then some { s with workers := s.workers.set k Worker.panicked }
      else none
  | _ => none

/-- The send of worker `k` on `results` received by the gathering loop of main
(lines 38-41 and 14 or 18). -/
def deliverStep (cfg : Config) (k : Nat) (s : State) : Option State :=
  match s.pc, s.workers[k]? with
  | MainPc.gather i, some (Worker.send p v) =>
      if i < cfg.count ∧ s.resultsClosed = false then
        some { s with workers := s.workers.set k Worker.recv, arrived := s.arrived ++ [v],
                      served := s.served ++ [p], openPorts := gatherIter s.openPorts v,
                      pc := MainPc.gather (i + 1) }
      else none
  | _, _ => none

/-- One step of the program. -/
def step (cfg : Config) (dial : Int → Bool) : Action → State → Option State
  | Action.main, s => mainStep cfg s
  | Action.feeder, s => feederStep cfg s
  | Action.handoff k, s => handoffStep cfg k s
  | Action.worker k, s => workerStep dial k s
  | Action.deliver k, s => deliverStep cfg k s

/-- Run a schedule (a list of actions) from a state; `none` when an action of the
schedule is not enabled. -/
def run (cfg : Config) (dial : Int → Bool) : List Action → State → Option State
  | [], s => some s
  | a :: as, s =>
      match step cfg dial a s with
      | some t => run cfg dial as t
      | none => none

/-- States the program can be in: the start state and whatever a step leads to. -/
inductive Reachable (cfg : Config) (dial : Int → Bool) : State → Prop
  | start : Reachable cfg dial State.start
  | step {s t : State} (a : Action) : Reachable cfg dial s → step cfg dial a s = some t →
      Reachable cfg dial t

/-! ## Specification vocabulary and invariants -/

/-- The value a worker publishes for item `p`: `p` when the dial succeeds, else `0`. -/
def probe (dial : Int → Bool) (p : Int) : Int :=
  if dial p = true then p else 0

/-- The first `n` items the feeder publishes: `1, 2, ..., n`. -/
def issued (n : Nat) : List Int :=
  (List.range' 1 n).map (fun i : Nat => (i : Int))

/-- The item a worker holds: none when it is at its receive or has stopped. -/
def Worker.held : Worker → Multiset Int
  | Worker.dial p => {p}
  | Worker.send p _ => {p}
  | _ => 0

/-- The items held by all workers together. -/
def heldAll (ws : List Worker) : Multiset Int :=
  (ws.map Worker.held).sum

/-- A worker that holds no item and owes no result: it is at its receive or has returned. -/
def Worker.idle : Worker → Bool
  | Worker.recv => true
  | Worker.done => true
  | _ => false

/-- The gathering loop is over: main is past line 42. -/
def MainPc.gathered : MainPc → Bool
  | MainPc.closePorts => true
  | MainPc.closeResults => true
  | MainPc.sorting => true
  | MainPc.print _ => true
  | MainPc.returned => true
  | _ => false

/-- What is known at each control point of the main goroutine. -/
def PhaseInv (cfg : Config) (s : State) : Prop :=
  match s.pc with
  | MainPc.spawn i =>
      s.workers.length = i ∧ i ≤ cfg.workers ∧ s.feeder = Feeder.notStarted ∧ s.next = 1 ∧
      s.buf = [] ∧ s.arrived = [] ∧ s.openPorts = [] ∧ s.printed = [] ∧
      s.portsClosed = false ∧ s.resultsClosed = false
  | MainPc.goFeeder =>
      s.workers.length = cfg.workers ∧ s.feeder = Feeder.notStarted ∧ s.next = 1 ∧
      s.buf = [] ∧ s.arrived = [] ∧ s.openPorts = [] ∧ s.printed = [] ∧
      s.portsClosed = false ∧ s.resultsClosed = false
  | MainPc.gather i =>
      s.arrived.length = i ∧ i ≤ cfg.count ∧ s.feeder ≠ Feeder.notStarted ∧
      s.workers.length = cfg.workers ∧
      s.openPorts = s.arrived.filter (fun v => decide (v ≠ 0)) ∧ s.printed = [] ∧
      s.portsClosed = false ∧ s.resultsClosed = false
  | MainPc.closePorts =>
      s.arrived.length = cfg.count ∧ s.feeder ≠ Feeder.notStarted ∧
      s.workers.length = cfg.workers ∧
      s.openPorts = s.arrived.filter (fun v => decide (v ≠ 0)) ∧ s.printed = [] ∧
      s.portsClosed = false ∧ s.resultsClosed = false
  | MainPc.closeResults =>
      s.arrived.length = cfg.count ∧ s.feeder ≠ Feeder.notStarted ∧
      s.workers.length = cfg.workers ∧
      s.openPorts = s.arrived.filter (fun v => decide (v ≠ 0)) ∧ s.printed = [] ∧
      s.portsClosed = true ∧ s.resultsClosed = false
  | MainPc.sorting =>
      s.arrived.length = cfg.count ∧ s.feeder ≠ Feeder.notStarted ∧
      s.workers.length = cfg.workers ∧
      s.openPorts = s.arrived.filter (fun v => decide (v ≠ 0)) ∧ s.printed = [] ∧
      s.portsClosed = true ∧ s.resultsClosed = true
  | MainPc.print j =>
      s.arrived.length = cfg.count ∧ s.feeder ≠ Feeder.notStarted ∧
      s.workers.length = cfg.workers ∧
      s.openPorts = sortInts (s.arrived.filter (fun v => decide (v ≠ 0))) ∧
      s.printed = s.openPorts.take j ∧ j ≤ s.openPorts.length ∧
      s.portsClosed = true ∧ s.resultsClosed = true
  | MainPc.returned =>
      s.arrived.length = cfg.count ∧ s.feeder ≠ Feeder.notStarted ∧
      s.workers.length = cfg.workers ∧
      s.openPorts = sortInts (s.arrived.filter (fun v => decide (v ≠ 0))) ∧
      s.printed = s.openPorts ∧
      s.portsClosed = true ∧ s.resultsClosed = true
  | MainPc.panicked => False

/-- The invariant of the program.  Every published item is in exactly one place (its
result has been received, a worker holds it, or it waits in the buffer); the
items published are `1, ..., next - 1` in this order; every value received, and
every value about to be sent, is the result of its item; the feeder's loop
variable is in range; each control point of main knows its facts; nothing has
panicked. -/
structure Inv (cfg : Config) (dial : Int → Bool) (s : State) : Prop where
  conserve : (s.served : Multiset Int) + heldAll s.workers + (s.buf : Multiset Int)
      = (s.published : Multiset Int)
  published_eq : s.published = issued (s.next - 1)
  values : s.arrived = s.served.map (probe dial)
  sends : ∀ p v, Worker.send p v ∈ s.workers → v = probe dial p
  next_pos : 1 ≤ s.next
  next_le : s.next ≤ cfg.count + 1
  phase : PhaseInv cfg s
  feeder_ok : s.feeder ≠ Feeder.panicked
  workers_ok : ∀ w ∈ s.workers, w ≠ Worker.panicked

/-! ## Reference runs

Runs in which main starts the workers and the feeder and then, round after round,
a worker takes an item from the feeder directly, dials and delivers its result.
Their states are written out; `srv` is the sequence of items whose results main has
received so far. -/

/-- Main is in the loop that starts the workers, `i` of them started. -/
def spawnState (i : Nat) : State :=
  { State.start with workers := List.replicate i Worker.recv, pc := MainPc.spawn i }

/-- Main is at the top of the gathering loop, having received the results of the
items `srv` (there are `i` of them), the feeder is about to publish item `i + 1`,
and every worker waits at its receive. -/
def roundState (cfg : Config) (dial : Int → Bool) (srv : List Int) (i : Nat) : State :=
  { buf := [], portsClosed := false, resultsClosed := false,
    workers := List.replicate cfg.workers Worker.recv,
    feeder := Feeder.running, next := i + 1, published := issued i, pc := MainPc.gather i,
    arrived := srv.map (probe dial), served := srv,
    openPorts := (srv.map (probe dial)).filter (fun v => decide (v ≠ 0)),
    printed := [] }

/-- Main has closed `ports` and is about to execute `close(results)`. -/
def closingState (cfg : Config) (dial : Int → Bool) (srv : List Int) : State :=
  { roundState cfg dial srv cfg.count with portsClosed := true, pc := MainPc.closeResults }

/-- Main is in the printing loop at index `j`. -/
def printState (cfg : Config) (dial : Int → Bool) (srv : List Int) (j : Nat) : State :=
  { roundState cfg dial srv cfg.count with
    portsClosed := true, resultsClosed := true,
    openPorts := sortInts ((srv.map (probe dial)).filter (fun v => decide (v ≠ 0))),
    printed := (sortInts ((srv.map (probe dial)).filter (fun v => decide (v ≠ 0)))).take j,
    pc := MainPc.print j }

/-- Main has returned from `multiPortScanConcurrentlyUsingMultipleChannels`. -/
def returnedState (cfg : Config) (dial : Int → Bool) (srv : List Int) : State :=
  { roundState cfg dial srv cfg.count with
    portsClosed := true, resultsClosed := true,
    openPorts := sortInts ((srv.map (probe dial)).filter (fun v => decide (v ≠ 0))),
    printed := sortInts ((srv.map (probe dial)).filter (fun v => decide (v ≠ 0))),
    pc := MainPc.returned }

/-- The items `i + 1, ..., i + k`, in that order. -/
def itemsFrom (i k : Nat) : List Int :=
  (List.range' (i + 1) k).map (fun j : Nat => (j : Int))

/-- Order of service of the run in which the results arrive in the order of their items. -/
def inOrderItems (n : Nat) : List Int :=
  itemsFrom 0 n

/-- Order of service of the run in which two workers hold items 1 and 2 together and
the result of item 2 is received before the result of item 1. -/
def swappedItems (n : Nat) : List Int :=
  [2, 1] ++ itemsFrom 2 (n - 2)

/-- Seven workers take the items 1..7, and their results are received in the order
7, 1, 3, 2, 4, 5, 6. -/
def mixedSchedule : List Action :=
  [Action.handoff 0, Action.handoff 1, Action.handoff 2, Action.handoff 3, Action.handoff 4,
   Action.handoff 5, Action.handoff 6,
   Action.worker 0, Action.worker 1, Action.worker 2, Action.worker 3, Action.worker 4,
   Action.worker 5, Action.worker 6,
   Action.deliver 6, Action.deliver 0, Action.deliver 2, Action.deliver 1, Action.deliver 3,
   Action.deliver 4, Action.deliver 5]

/-- Order of service of the run that starts with `mixedSchedule` and then serves the
items 8..1024 in order. -/
def mixedItems : List Int :=
  [7, 1, 3, 2, 4, 5, 6] ++ itemsFrom 7 1017

/-- A dial outcome: every port is closed. -/
def dialNone : Int → Bool :=
  fun _ => false

/-- A dial outcome: every port is open. -/
def dialAll : Int → Bool :=
  fun _ => true

/-- A dial outcome: exactly the ports 1, 3 and 7 are open. -/
def dialMixed : Int → Bool :=
  fun p => decide (p = 1 ∨ p = 3 ∨ p = 7)

/-! ## Further vocabulary: termination, a dial that hangs -/

/-- Further facts about the termination of the goroutines: the feeder leaves its
loop only after its last item, and a worker leaves its loop only after `ports`
has been closed. -/
structure ExitInv (cfg : Config) (s : State) : Prop where
  feeder_done : s.feeder = Feeder.done → s.next = cfg.count + 1
  worker_done : Worker.done ∈ s.workers → s.portsClosed = true

/-- What a call of `net.Dial` can do: return a connection, return an error, or not
return. -/
inductive DialResult where
  | connected
  | refused
  | hangs
  deriving DecidableEq

/-- Function `workerMultiChannel` (lines 9-20) run alone on the items it receives, with
a dial that may not return.  The result is the sequence of values published and
whether the function has returned; a dial that does not return leaves the worker
at line 12 for ever. -/
def workerBlocking (dial : Int → DialResult) : List Int → List Int → List Int × Bool
  | [], results => (results, true)
  | p :: ports, results =>
      match dial p with
      | DialResult.hangs => (results, false)
      | DialResult.refused => workerBlocking dial ports (results ++ [0])
      | DialResult.connected => workerBlocking dial ports (results ++ [p])

/-- A dial outcome: the dial to port 2 never returns, every other dial is refused. -/
def dialHangsAtTwo : Int → DialResult :=
  fun p => if p = 2 then DialResult.hangs else DialResult.refused

end TcpScannerFinal

/-! ## The WaitGroup scanner `ch2/tcp-scanner-wg-too-fast` -/

namespace TcpScannerWg

/-- Control point of one goroutine `func(j int)` (lines 13-23). -/
inductive Probe where
  /-- Started with argument `j`, `wg.Done` deferred, about to call `net.Dial`. -/
  | dialing (j : Int)
  /-- The dial succeeded: about to close the connection and print `j`. -/
  | printing (j : Int)
  /-- The body has returned (line 19 or the end): the deferred `wg.Done()` is about to run. -/
  | finishing (j : Int)
  /-- Terminated. -/
  | done (j : Int)
  /-- Run-time panic: negative WaitGroup counter. -/
  | panicked (j : Int)
  deriving DecidableEq

/-- The argument `j` of the goroutine. -/
def Probe.item : Probe → Int
  | Probe.dialing j => j
  | Probe.printing j => j
  | Probe.finishing j => j
  | Probe.done j => j
  | Probe.panicked j => j

/-- Control point of the main goroutine (lines 11-24 and 45-46). -/
inductive MainPc where
  /-- Line 11 with loop variable `i`: the test and, when it holds, `wg.Add(1)`. -/
  | add (i : Nat)
  /-- Line 13: about to start the goroutine for `i`. -/
  | spawn (i : Nat)
  /-- Line 46: `wg.Wait()`. -/
  | wait
  /-- The function `main` has returned: the process has exited. -/
  | returned
  deriving DecidableEq

/-- A state of the running program: `counter` is the counter of the WaitGroup and
`printed` the ports printed so far, in order. -/
structure State where
  pc : MainPc
  counter : Int
  probes : List Probe
  printed : List Int
  deriving DecidableEq

/-- State when `main` calls `multiPortScanConcurrently`. -/
def State.start : State :=
  { pc := MainPc.add 1, counter := 0, probes := [], printed := [] }

/-- What can happen next: main moves, or the goroutine in slot `k` moves. -/
inductive Action where
  | main
  | probe (k : Nat)
  deriving DecidableEq

/-- A step of the main goroutine; `n` is the last port (1024).  `wg.Wait()` blocks
until the counter is zero. -/
def mainStep (n : Nat) (s : State) : Option State :=
  match s.pc with
  | MainPc.add i =>
      if i ≤ n then some { s with counter := s.counter + 1, pc := MainPc.spawn i }
      else some { s with pc := MainPc.wait }
  | MainPc.spawn i =>
      some { s with probes := s.probes ++ [Probe.dialing (i : Int)], pc := MainPc.add (i + 1) }
  | MainPc.wait => if s.counter = 0 then some { s with pc := MainPc.returned } else none
  | MainPc.returned => none

/-- A step of the goroutine in slot `k` (lines 14-22).  Nothing runs once `main` has
returned. -/
def probeStep (dial : Int → Bool) (k : Nat) (s : State) : Option State :=
  if s.pc = MainPc.returned then none
  else
    match s.probes[k]? with
    | some (Probe.dialing j) =>
        if dial j = false then some { s with probes := s.probes.set k (Probe.finishing j) }
        else some { s with probes := s.probes.set k (Probe.printing j) }
    | some (Probe.printing j) =>
        some { s with printed := s.printed ++ [j], probes := s.probes.set k (Probe.finishing j) }
    | some (Probe.finishing j) =>
        if s.counter ≤ 0 then some { s with probes := s.probes.set k (Probe.panicked j) }
        else some { s with counter := s.counter - 1, probes := s.probes.set k (Probe.done j) }
    | _ => none

/-- One step of the program. -/
def step (n : Nat) (dial : Int → Bool) : Action → State → Option State
  | Action.main, s => mainStep n s
  | Action.probe k, s => probeStep dial k s

/-- States the program can be in. -/
inductive Reachable (n : Nat) (dial : Int → Bool) : State → Prop
  | start : Reachable n dial State.start
  | step {s t : State} (a : Action) : Reachable n dial s → step n dial a s = some t →
      Reachable n dial t

/-- 1 for a goroutine that has been started and has not yet run its `wg.Done()`. -/
def Probe.live : Probe → Nat
  | Probe.dialing _ => 1
  | Probe.printing _ => 1
  | Probe.finishing _ => 1
  | _ => 0

/-- Number of goroutines started that have not yet run their `wg.Done()`. -/
def liveAll (ps : List Probe) : Nat :=
  (ps.map Probe.live).sum

/-- 1 between `wg.Add(1)` and the `go` statement it announces, else 0. -/
def MainPc.pending : MainPc → Nat
  | MainPc.spawn _ => 1
  | _ => 0

/-- Number of goroutines started when main is at a control point (`n` is the last port). -/
def MainPc.launched (n : Nat) : MainPc → Nat
  | MainPc.add i => i - 1
  | MainPc.spawn i => i - 1
  | _ => n

/-- The invariant: the goroutines started are those of the ports `1, 2, ...` in
order, the counter is the number of goroutines announced or started whose
`wg.Done()` has not run, the loop variable is in range, and no goroutine has
panicked. -/
structure Inv (n : Nat) (s : State) : Prop where
  items : s.probes.map Probe.item = TcpScannerFinal.issued (s.pc.launched n)
  counter_eq : s.counter = ((liveAll s.probes + s.pc.pending : Nat) : Int)
  range_add : ∀ i, s.pc = MainPc.add i → 1 ≤ i ∧ i ≤ n + 1
  range_spawn : ∀ i, s.pc = MainPc.spawn i → 1 ≤ i ∧ i ≤ n
  no_panic : ∀ j, Probe.panicked j ∉ s.probes
  returned_zero : s.pc = MainPc.returned → s.counter = 0

/-- State of the run in which each goroutine runs to its end before the next one is
announced: the goroutines of the ports `1..i` have terminated and main is at the
loop test with `i + 1`. -/
def doneState (dial : Int → Bool) (i : Nat) : State :=
  { pc := MainPc.add (i + 1), counter := 0,
    probes := (TcpScannerFinal.issued i).map Probe.done,
    printed := (TcpScannerFinal.issued i).filter (fun p => dial p) }

/-- End of that run: `wg.Wait()` has returned. -/
def returnedState (dial : Int → Bool) (n : Nat) : State :=
  { doneState dial n with pc := MainPc.returned }

end TcpScannerWg

/-! ## The worker-pool scanner `ch2/tcp-sync-scanner` -/

namespace TcpSyncScanner

/-- The constants of the program: the bound `cap(ports)` of the loop that starts the
workers (line 17), the capacity of `ports` (line 16), the last item (line 20). -/
structure Config where
  workers : Nat
  capacity : Nat
  count : Nat
  deriving DecidableEq

/-- The constants as written in the source. -/
def scanConfig : Config :=
  { workers := 100, capacity := 100, count := 1024 }

/-- Control point of one `worker` goroutine (lines 8-13). -/
inductive Worker where
  /-- At `for p := range ports`, about to receive. -/
  | recv
  /-- Holds item `p`, about to print it (line 10). -/
  | printing (p : Int)
  /-- Has printed item `p`, about to call `wg.Done()` (line 11). -/
  | finishing (p : Int)
  /-- The loop has ended and the function has returned. -/
  | exited
  /-- Run-time panic: negative WaitGroup counter. -/
  | panicked
  deriving DecidableEq

/-- Control point of the main goroutine in `multiPortScanConcurrentlyUsingWorkerPool`. -/
inductive MainPc where
  /-- Line 17, loop variable `i`. -/
  | spawn (i : Nat)
  /-- Line 20 with loop variable `i`: the test and, when it holds, `wg.Add(1)`. -/
  | add (i : Nat)
  /-- Line 22: about to execute `ports <- i`. -/
  | send (i : Nat)
  /-- Line 24: `wg.Wait()`. -/
  | wait
  /-- Line 25: `close(ports)`. -/
  | closePorts
  /-- Line 26. -/
  | returned
  deriving DecidableEq

/-- A state of the running program.  `counter` is the counter of the WaitGroup;
`added`, `sent` and `completed` are history variables: the items for which
`wg.Add(1)` has run, the items sent on `ports`, and the items for which
`wg.Done()` has run, each in order.  `printed` is the output. -/
structure State where
  buf : List Int
  portsClosed : Bool
  workers : List Worker
  pc : MainPc
  counter : Int
  added : List Int
  sent : List Int
  completed : List Int
  printed : List Int
  deriving DecidableEq

/-- State after `make(chan int, 100)`. -/
def State.start : State :=
  { buf := [], portsClosed := false, workers := [], pc := MainPc.spawn 0, counter := 0,
    added := [], sent := [], completed := [], printed := [] }

/-- What can happen next. -/
inductive Action where
  /-- The main goroutine executes its next statement (a send goes into the buffer). -/
  | main
  /-- The send of main is received directly by worker `k`, waiting on the empty channel. -/
  | handoff (k : Nat)
  /-- Worker `k` executes its next statement (a receive takes from the buffer). -/
  | worker (k : Nat)
  deriving DecidableEq

/-- A step of the main goroutine (lines 17-25).  `wg.Wait()` blocks until the counter
is zero; the send blocks while the buffer is full. -/
def mainStep (cfg : Config) (s : State) : Option State :=
  match s.pc with
  | MainPc.spawn i =>
      if i < cfg.workers then
        some { s with workers := s.workers ++ [Worker.recv], pc := MainPc.spawn (i + 1) }
      else some { s with pc := MainPc.add 1 }
  | MainPc.add i =>
      if i ≤ cfg.count then
        some { s with counter := s.counter + 1, added := s.added ++ [(i : Int)],
                      pc := MainPc.send i }
      else some { s with pc := MainPc.wait }
  | MainPc.send i =>
      if s.buf.length < cfg.capacity then
        some { s with buf := s.buf ++ [(i : Int)], sent := s.sent ++ [(i : Int)],
                      pc := MainPc.add (i + 1) }
      else none
  | MainPc.wait => if s.counter = 0 then some { s with pc := MainPc.closePorts } else none
  | MainPc.closePorts => some { s with portsClosed := true, pc := MainPc.returned }
  | MainPc.returned => none

/-- The send `ports <- i` handed to worker `k`, which waits on the empty channel. -/
def handoffStep (k : Nat) (s : State) : Option State :=
  match s.pc, s.workers[k]?, s.buf with
  | MainPc.send i, some Worker.recv, [] =>
      some { s with workers := s.workers.set k (Worker.printing (i : Int)),
                    sent := s.sent ++ [(i : Int)], pc := MainPc.add (i + 1) }
  | _, _, _ => none

/-- A step of worker `k` (lines 9-12). -/
def workerStep (k : Nat) (s : State) : Option State :=
  match s.workers[k]? with
  | some Worker.recv =>
      match s.buf with
      | p :: rest => some { s with buf := rest, workers := s.workers.set k (Worker.printing p) }
      | [] =>
          if s.portsClosed then some { s with workers := s.workers.set k Worker.exited }
          else none
  | some (Worker.printing p) =>
      some { s with printed := s.printed ++ [p], workers := s.workers.set k (Worker.finishing p) }
  | some (Worker.finishing p) =>
      if s.counter ≤ 0 then some { s with workers := s.workers.set k Worker.panicked }
      else some { s with counter := s.counter - 1, completed := s.completed ++ [p],
                         workers := s.workers.set k Worker.recv }
  | _ => none

/-- One step of the program. -/
def step (cfg : Config) : Action → State → Option State
  | Action.main, s => mainStep cfg s
  | Action.handoff k, s => handoffStep k s
  | Action.worker k, s => workerStep k s

/-- States the program can be in. -/
inductive Reachable (cfg : Config) : State → Prop
  | start : Reachable cfg State.start
  | step {s t : State} (a : Action) : Reachable cfg s → step cfg a s = some t →
      Reachable cfg t

/-- The item a worker holds. -/
def Worker.held : Worker → Multiset Int
  | Worker.printing p => {p}
  | Worker.finishing p => {p}
  | _ => 0

/-- The items held by all workers together. -/
def heldAll (ws : List Worker) : Multiset Int :=
  (ws.map Worker.held).sum

/-- The item a worker has printed and not yet reported done. -/
def Worker.shown : Worker → Multiset Int
  | Worker.finishing p => {p}
  | _ => 0

/-- The items printed and not yet reported done, over all workers. -/
def shownAll (ws : List Worker) : Multiset Int :=
  (ws.map Worker.shown).sum

/-- A worker that holds no item. -/
def Worker.idle : Worker → Bool
  | Worker.recv => true
  | Worker.exited => true
  | _ => false

/-- Number of `wg.Add(1)` executed when main is at a control point. -/
def MainPc.addCount (cfg : Config) : MainPc → Nat
  | MainPc.spawn _ => 0
  | MainPc.add i => i - 1
  | MainPc.send i => i
  | _ => cfg.count

/-- Number of items sent on `ports` when main is at a control point. -/
def MainPc.sendCount (cfg : Config) : MainPc → Nat
  | MainPc.spawn _ => 0
  | MainPc.add i => i - 1
  | MainPc.send i => i - 1
  | _ => cfg.count

/-- The wait is over: main is past line 24. -/
def MainPc.waited : MainPc → Bool
  | MainPc.closePorts => true
  | MainPc.returned => true
  | _ => false

/-- The invariant of the program. -/
structure Inv (cfg : Config) (s : State) : Prop where
  counter_eq : s.counter = (s.added.length : Int) - (s.completed.length : Int)
  added_eq : s.added = TcpScannerFinal.issued (s.pc.addCount cfg)
  sent_eq : s.sent = TcpScannerFinal.issued (s.pc.sendCount cfg)
  conserve : (s.completed : Multiset Int) + heldAll s.workers + (s.buf : Multiset Int)
      = (s.sent : Multiset Int)
  shown_eq : (s.printed : Multiset Int) = (s.completed : Multiset Int) + shownAll s.workers
  range_add : ∀ i, s.pc = MainPc.add i → 1 ≤ i ∧ i ≤ cfg.count + 1
  range_send : ∀ i, s.pc = MainPc.send i → 1 ≤ i ∧ i ≤ cfg.count
  waited_zero : s.pc.waited = true → s.counter = 0
  closed_iff : s.portsClosed = true → s.pc = MainPc.returned
  no_panic : Worker.panicked ∉ s.workers

/-- Main is in the loop that starts the workers, `i` of them started. -/
def spawnState (i : Nat) : State :=
  { State.start with workers := List.replicate i Worker.recv, pc := MainPc.spawn i }

/-- State of the run in which each item is handed to a worker, printed and reported
done before the next one is announced: the items `1..i` are done and main is at
the loop test with `i + 1`. -/
def roundState (cfg : Config) (i : Nat) : State :=
  { buf := [], portsClosed := false, workers := List.replicate cfg.workers Worker.recv,
    pc := MainPc.add (i + 1), counter := 0,
    added := TcpScannerFinal.issued i, sent := TcpScannerFinal.issued i,
    completed := TcpScannerFinal.issued i, printed := TcpScannerFinal.issued i }

/-- End of that run: `ports` has been closed and the function has returned. -/
def returnedState (cfg : Config) : State :=
  { roundState cfg cfg.count with portsClosed := true, pc := MainPc.returned }

end TcpSyncScanner

/-! ## The naive scanner `ch2/tcp-scanner-too-fast` -/

namespace TcpScannerTooFast

/-- Control point of one goroutine `func(j int)` (lines 17-25). -/
inductive Probe where
  /-- Started with argument `j`, about to call `net.Dial`. -/
  | dialing (j : Int)
  /-- The dial succeeded: about to close the connection and print `j`. -/
  | printing (j : Int)
  /-- Terminated. -/
  | done (j : Int)
  deriving DecidableEq

/-- Control point of the main goroutine (lines 16-27). -/
inductive MainPc where
  /-- Line 16 with loop variable `i`. -/
  | loop (i : Nat)
  /-- The function `main` has returned: the process has exited. -/
  | returned
  deriving DecidableEq

/-- A state of the running program; `printed` is the output. -/
structure State where
  pc : MainPc
  probes : List Probe
  printed : List Int
  deriving DecidableEq

/-- State on entry of `main`. -/
def State.start : State :=
  { pc := MainPc.loop 1, probes := [], printed := [] }

/-- What can happen next: main moves, or the goroutine in slot `k` moves. -/
inductive Action where
  | main
  | probe (k : Nat)
  deriving DecidableEq

/-- A step of the main goroutine; `n` is the last port (1024).  After the loop `main`
returns without waiting for anything. -/
def mainStep (n : Nat) (s : State) : Option State :=
  match s.pc with
  | MainPc.loop i =>
      if i ≤ n then
        some { s with probes := s.probes ++ [Probe.dialing (i : Int)], pc := MainPc.loop (i + 1) }
      else some { s with pc := MainPc.returned }
  | MainPc.returned => none

/-- A step of the goroutine in slot `k` (lines 18-24).  Nothing runs once `main` has
returned. -/
def probeStep (dial : Int → Bool) (k : Nat) (s : State) : Option State :=
  if s.pc = MainPc.returned then none
  else
    match s.probes[k]? with
    | some (Probe.dialing j) =>
        if dial j = false then some { s with probes := s.probes.set k (Probe.done j) }
        else some { s with probes := s.probes.set k (Probe.printing j) }
    | some (Probe.printing j) =>
        some { s with printed := s.printed ++ [j], probes := s.probes.set k (Probe.done j) }
    | _ => none

/-- One step of the program. -/
def step (n : Nat) (dial : Int → Bool) : Action → State → Option State
  | Action.main, s => mainStep n s
  | Action.probe k, s => probeStep dial k s

/-- States the program can be in. -/
inductive Reachable (n : Nat) (dial : Int → Bool) : State → Prop
  | start : Reachable n dial State.start
  | step {s t : State} (a : Action) : Reachable n dial s → step n dial a s = some t →
      Reachable n dial t

/-- Main has started the goroutines of the ports `1..i` and none of them has moved. -/
def launchedState (i : Nat) : State :=
  { pc := MainPc.loop (i + 1), probes := (TcpScannerFinal.issued i).map Probe.dialing,
    printed := [] }

/-- Main has returned right after starting the goroutines of the ports `1..n`. -/
def abandonedState (n : Nat) : State :=
  { launchedState n with pc := MainPc.returned }

end TcpScannerTooFast

/-! ## The sequential scanner `ch2/tcp-scanner-slow` -/

namespace TcpScannerSlow

/-- The loop `for i := 1; i <= n; i++` of `main` (lines 28-37) from loop variable `i`
on; `printed` is the list of ports printed so far.  The first argument is fuel:
`none` when it runs out before the loop ends. -/
def scanLoop (dial : Int → Bool) (n : Nat) : Nat → Nat → List Int → Option (List Int)
  | 0, _, _ => none
  | fuel + 1, i, printed =>
      if i ≤ n then
        if dial (i : Int) = false then
          -- err != nil: `continue`
          scanLoop dial n fuel (i + 1) printed
        else
          -- `conn.Close()`, then `fmt.Printf("%d open\n", i)`
          scanLoop dial n fuel (i + 1) (printed ++ [(i : Int)])
      else some printed

/-- Function `main` of the sequential scanner with last port `n` (1024 in the source):
the ports printed, in order. -/
def scan (dial : Int → Bool) (n : Nat) : Option (List Int) :=
  scanLoop dial n (n + 1) 1 []

end TcpScannerSlow

/-! ## The echo handler of `ch2/echo-server` -/

namespace EchoServer

/-- What one call of `conn.Read(b[0:])` (line 18) returns: the bytes the connection
delivered and the error.  The returned `size` is the number of bytes. -/
inductive ReadResult where
  /-- The error is nil. -/
  | ok (data : List Nat)
  /-- The error is `io.EOF`. -/
  | eof (data : List Nat)
  /-- Another error. -/
  | fail (data : List Nat)
  deriving DecidableEq

/-- A read is successful when its error is nil. -/
def ReadResult.isOk : ReadResult → Bool
  | ReadResult.ok _ => true
  | _ => false

/-- How an execution of `echo` stands at the end of the script of read results. -/
inductive Exit where
  /-- A `break` (line 21 or 25) left the loop; `echo` returned and the deferred
  `conn.Close()` ran. -/
  | returned
  /-- Function `log.Fatalln` (line 31) ended the process. -/
  | fatal
  /-- The slice expression `b[0:size]` (line 30) is out of range. -/
  | panicked
  /-- The handler is inside `conn.Read`, waiting for the next result. -/
  | reading
  deriving DecidableEq

/-- The calls `conn.Write` made so far (the argument of each, in order) and how the
execution stands. -/
structure Outcome where
  writes : List (List Nat)
  exit : Exit
  deriving DecidableEq

/-- Buffer `b` after a read that delivered `data`: the bytes overwrite the front of
the buffer, the rest of the buffer keeps its older contents, and the length of the
buffer does not change. -/
def readInto (b data : List Nat) : List Nat :=
  (data ++ b.drop data.length).take b.length

/-- The loop of `echo` (lines 16-33).  The script lists what the successive calls of
`conn.Read` return, `writeOk k` tells whether the call number `k` of `conn.Write`
returns a nil error, `b` is the buffer and `ws` the writes made so far. -/
def echoLoop (writeOk : Nat → Bool) : List ReadResult → List Nat → List (List Nat) → Outcome
  | [], _, ws => { writes := ws, exit := Exit.reading }
  | ReadResult.eof _ :: _, _, ws => { writes := ws, exit := Exit.returned }
  | ReadResult.fail _ :: _, _, ws => { writes := ws, exit := Exit.returned }
  | ReadResult.ok data :: rest, b, ws =>
      if data.length ≤ b.length then
        if writeOk ws.length then
          echoLoop writeOk rest (readInto b data) (ws ++ [(readInto b data).take data.length])
        else
          { writes := ws ++ [(readInto b data).take data.length], exit := Exit.fatal }
      else { writes := ws, exit := Exit.panicked }

/-- Function `echo` (lines 11-34): the buffer is `make([]byte, 512)`. -/
def echo (writeOk : Nat → Bool) (script : List ReadResult) : Outcome :=
  echoLoop writeOk script (List.replicate 512 0) []

end EchoServer

/-! ## The router of `ch4/simple_router` -/

namespace SimpleRouter

/-- The part of `*http.Request` a handler can look at. -/
structure Request where
  method : String
  /-- Field `req.URL.Path`. -/
  path : String
  query : String
  body : String
  deriving DecidableEq

/-- What a handler does to its `http.ResponseWriter`. -/
inductive Call where
  /-- The call `fmt.Fprint(w, text)`: the text is written to `w`. -/
  | fprint (text : String)
  /-- The call `http.Error(w, message, code)`: a reply to the request with the
  given error message and HTTP status code. -/
  | error (message : String) (code : Nat)
  deriving DecidableEq

/-- Method `ServeHTTP` of `router` (lines 12-23): the call it makes on `w`.  It
reads nothing of the request but `req.URL.Path`. -/
def serveHTTP (req : Request) : Call :=
  match req.path with
  | "/a" => Call.fprint "Executing /a"
  | "/b" => Call.fprint "Executing /b"
  | "/c" => Call.fprint "Executing /c"
  | _ => Call.error "404 Not Found" 404

end SimpleRouter

/-! ## The reader and writer of `ch2/io-example` -/

namespace IoExample

/-- What `reader.Read(input)` (line 31, `os.Stdin.Read`) returns: the bytes standard
input delivered and whether the error is nil. -/
structure ReadResult where
  data : List Nat
  ok : Bool
  deriving DecidableEq

/-- What the program does that can be observed from outside, in order. -/
inductive Event where
  /-- The prompt `fmt.Print("in > ")` of `FooReader.Read` (line 14). -/
  | promptIn
  /-- Line 35: `fmt.Printf("Read %d bytes from stdin\n", s)`. -/
  | reportRead (s : Nat)
  /-- The prompt `fmt.Print("out> ")` of `FooWriter.Write` (line 23). -/
  | promptOut
  /-- The call `os.Stdout.Write(b)` (line 24) with the bytes `b`. -/
  | write (b : List Nat)
  /-- Line 41: `fmt.Printf("Wrote %d bytes to stdout\n", s)`. -/
  | reportWrote (s : Nat)
  /-- Function `log.Fatalln` (line 33 or 39) ended the process. -/
  | fatal (message : String)
  deriving DecidableEq

/-- Buffer `b` after a read that delivered `data`: the bytes overwrite the front of
the buffer and the length of the buffer does not change. -/
def readInto (b data : List Nat) : List Nat :=
  (data ++ b.drop data.length).take b.length

/-- Function `readAndWrite` (lines 27-42).  The second argument tells whether
`os.Stdout.Write` returns a nil error, in which case it returns the number of bytes
it was given. -/
def readAndWrite (r : ReadResult) (writeOk : Bool) : List Event :=
  let input := readInto (List.replicate 4096 0) r.data
  if r.ok = false then [Event.promptIn, Event.fatal "Unable to read data"]
  else if writeOk = false then
    [Event.promptIn, Event.reportRead r.data.length, Event.promptOut, Event.write input,
      Event.fatal "Unable to write data"]
  else
    [Event.promptIn, Event.reportRead r.data.length, Event.promptOut, Event.write input,
      Event.reportWrote input.length]

end IoExample

/-! ## Theorems about `ch2/tcp-scanner-final` -/

namespace TcpScannerFinal

/-! ## Basic lemmas -/

theorem issued_succ (n : Nat) : issued (n + 1) = issued n ++ [((n + 1 : Nat) : Int)] := by
  simp [issued, List.range'_concat, Nat.add_comm]

theorem issued_length (n : Nat) : (issued n).length = n := by
  simp [issued]

theorem heldAll_nil : heldAll [] = 0 := by
  simp [heldAll]

theorem heldAll_cons (w : Worker) (ws : List Worker) :
    heldAll (w :: ws) = w.held + heldAll ws := by
  simp [heldAll]

theorem heldAll_append (xs ys : List Worker) :
    heldAll (xs ++ ys) = heldAll xs + heldAll ys := by
  simp [heldAll]

/-- Updating slot `k` of a list replaces the element there, and nothing else. -/
theorem set_split {α : Type} {ws : List α} {k : Nat} {w : α} (h : ws[k]? = some w) :
    ∃ pre post, ws = pre ++ w :: post ∧ pre.length = k ∧
      ∀ v, ws.set k v = pre ++ v :: post := by
  obtain ⟨hk, hw⟩ := List.getElem?_eq_some.mp h
  refine ⟨ws.take k, ws.drop (k + 1), ?_, ?_, ?_⟩
  · rw [← hw]
    simp
  · simp [Nat.le_of_lt hk]
  · intro v
    simp [List.set_eq_take_append_cons_drop, hk]

/-! ## The invariant holds in every reachable state -/

theorem inv_start (cfg : Config) (dial : Int → Bool) : Inv cfg dial State.start := by
  constructor <;> simp [State.start, PhaseInv, heldAll, issued]

/-- Counting form of conservation. -/
theorem Inv.card_eq {cfg : Config} {dial : Int → Bool} {s : State} (h : Inv cfg dial s) :
    s.arrived.length + Multiset.card (heldAll s.workers) + s.buf.length = s.next - 1 := by
  have := congrArg Multiset.card h.conserve
  simpa [issued_length, h.values, h.published_eq] using this

theorem filter_snoc (xs : List Int) (v : Int) :
    (xs ++ [v]).filter (fun v => decide (v ≠ 0))
      = gatherIter (xs.filter (fun v => decide (v ≠ 0))) v := by
  unfold gatherIter
  by_cases hv : v = 0 <;> simp [List.filter_append, hv]

theorem inv_main {cfg : Config} {dial : Int → Bool} {s t : State} (h : Inv cfg dial s)
    (hs : mainStep cfg s = some t) : Inv cfg dial t := by
  have hc := h.conserve
  have hp := h.next_pos
  have hl := h.next_le
  have hph := h.phase
  have hf := h.feeder_ok
  have hw := h.workers_ok
  have hsd := h.sends
  unfold mainStep at hs
  cases hpc : s.pc <;> simp only [hpc] at hs <;> simp only [PhaseInv, hpc] at hph
  case spawn i =>
    obtain ⟨h1, h2, h3, h4, h5, h6, h7, h8, h9, h10⟩ := hph
    split at hs <;> simp at hs <;> subst hs
    · refine ⟨?_, h.published_eq, h.values, ?_, hp, hl, ?_, hf, ?_⟩
      · simpa [heldAll_append, heldAll_cons, heldAll_nil, Worker.held] using hc
      · intro p v hmem
        rcases List.mem_append.mp hmem with h1 | h1
        · exact hsd p v h1
        · simp at h1
      · simp only [PhaseInv]; simp [*]; omega
      · intro w hmem
        rcases List.mem_append.mp hmem with h1 | h1
        · exact hw w h1
        · simp at h1; simp [h1]
    · refine ⟨hc, h.published_eq, h.values, hsd, hp, hl, ?_, hf, hw⟩
      simp only [PhaseInv]; simp [*]; omega
  case goFeeder =>
    obtain ⟨h1, h3, h4, h5, h6, h7, h8, h9, h10⟩ := hph
    simp at hs; subst hs
    refine ⟨hc, ?_, h.values, hsd, ?_, ?_, ?_, ?_, hw⟩
    · simpa [h4] using h.published_eq
    · simp
    · simp
    · simp only [PhaseInv]; simp [*]
    · simp
  case gather i =>
    obtain ⟨h1, h2, h3, h4, h5, h6, h7, h8⟩ := hph
    split at hs
    · split at hs
      · simp_all
      · simp at hs
    · simp at hs; subst hs
      refine ⟨hc, h.published_eq, h.values, hsd, hp, hl, ?_, hf, hw⟩
      simp only [PhaseInv]; simp [*]; omega
  case closePorts =>
    obtain ⟨h1, h3, h4, h5, h6, h7, h8⟩ := hph
    simp [h7] at hs; subst hs
    refine ⟨hc, h.published_eq, h.values, hsd, hp, hl, ?_, hf, hw⟩
    simp only [PhaseInv]; simp [*]
  case closeResults =>
    obtain ⟨h1, h3, h4, h5, h6, h7, h8⟩ := hph
    simp [h8] at hs; subst hs
    refine ⟨hc, h.published_eq, h.values, hsd, hp, hl, ?_, hf, hw⟩
    simp only [PhaseInv]; simp [*]
  case sorting =>
    obtain ⟨h1, h3, h4, h5, h6, h7, h8⟩ := hph
    simp at hs; subst hs
    refine ⟨hc, h.published_eq, h.values, hsd, hp, hl, ?_, hf, hw⟩
    simp only [PhaseInv]; simp [*]
  case print j =>
    obtain ⟨h1, h3, h4, h5, h6, h6b, h7, h8⟩ := hph
    split at hs <;> simp at hs <;> subst hs
    · rename_i port hport
      refine ⟨hc, h.published_eq, h.values, hsd, hp, hl, ?_, hf, hw⟩
      obtain ⟨hj, hget⟩ := List.getElem?_eq_some.mp hport
      simp only [PhaseInv]
      refine ⟨h1, h3, h4, h5, ?_, hj, h7, h8⟩
      simp only [h6]
      rw [List.take_succ, hport]
      rfl
    · rename_i hnone
      refine ⟨hc, h.published_eq, h.values, hsd, hp, hl, ?_, hf, hw⟩
      simp only [PhaseInv]
      refine ⟨h1, h3, h4, h5, ?_, h7, h8⟩
      simp only [h6]
      exact List.take_of_length_le (List.getElem?_eq_none_iff.mp hnone)
  case returned => simp at hs

theorem phase_congr {cfg : Config} {s t : State} (h : PhaseInv cfg s) (hpc : t.pc = s.pc)
    (hwl : t.workers.length = s.workers.length)
    (hf : t.feeder = s.feeder ∨ (s.feeder ≠ Feeder.notStarted ∧ t.feeder ≠ Feeder.notStarted))
    (hnb : s.feeder = Feeder.notStarted → t.next = s.next ∧ t.buf = s.buf)
    (harr : t.arrived = s.arrived) (hop : t.openPorts = s.openPorts)
    (hpr : t.printed = s.printed) (hpcl : t.portsClosed = s.portsClosed)
    (hrcl : t.resultsClosed = s.resultsClosed) : PhaseInv cfg t := by
  unfold PhaseInv at h ⊢
  rw [hpc]
  cases hs : s.pc <;> simp only [hs] at h ⊢ <;>
    simp only [hwl, harr, hop, hpr, hpcl, hrcl] <;>
    rcases hf with hf | ⟨hf1, hf2⟩ <;> (try simp only [hf]) <;>
    first
      | exact h
      | tauto
      | (have h3 := hnb (by tauto)
         simp only [h3.1, h3.2]
         exact h)

/-- Once a channel has been closed, all results have arrived. -/
theorem Inv.arrived_of_closed {cfg : Config} {dial : Int → Bool} {s : State}
    (h : Inv cfg dial s) (hcl : s.portsClosed = true ∨ s.resultsClosed = true) :
    s.arrived.length = cfg.count := by
  have hph := h.phase
  unfold PhaseInv at hph
  cases hs : s.pc <;> simp only [hs] at hph <;> rcases hcl with hcl | hcl <;> simp_all

theorem inv_feeder {cfg : Config} {dial : Int → Bool} {s t : State} (h : Inv cfg dial s)
    (hs : feederStep cfg s = some t) : Inv cfg dial t := by
  have hcard := h.card_eq
  have hclosed := h.arrived_of_closed
  obtain ⟨hc, hpub, hv, hsd, hp, hl, hph, hf, hw⟩ := h
  unfold feederStep at hs
  split at hs
  · rename_i hrun
    split at hs
    · rename_i hle
      split at hs
      · rename_i hcl
        have := hclosed (Or.inl hcl)
        omega
      · split at hs
        · simp at hs; subst hs
          refine ⟨?_, ?_, hv, hsd, ?_, ?_, ?_, hf, hw⟩
          · simp only [← Multiset.coe_add, ← hc]
            abel
          · obtain ⟨m, hm⟩ : ∃ m, s.next = m + 1 := ⟨s.next - 1, by omega⟩
            simp only [hm, Nat.add_sub_cancel] at hpub ⊢
            rw [issued_succ, hpub]
          · simp
          · simp; omega
          · exact phase_congr hph rfl rfl (Or.inl rfl) (by simp [hrun]) rfl rfl rfl rfl rfl
        · simp at hs
    · simp at hs; subst hs
      refine ⟨hc, hpub, hv, hsd, hp, hl, ?_, by simp, hw⟩
      exact phase_congr hph rfl rfl (Or.inr (by simp [hrun])) (by simp [hrun]) rfl rfl rfl rfl rfl
  · simp at hs

/-- A worker that holds an item makes the count of held items positive. -/
theorem heldAll_pos_of_split (pre post : List Worker) (w : Worker)
    (hw : w.idle = false) (hw2 : w ≠ Worker.panicked) :
    0 < Multiset.card (heldAll (pre ++ w :: post)) := by
  rw [heldAll_append, heldAll_cons]
  cases w <;> simp_all [Worker.held, Worker.idle]

theorem mem_replace {α : Type} {pre post : List α} (x : α) {v w : α}
    (h : w ∈ pre ++ v :: post) : w = v ∨ w ∈ pre ++ x :: post := by
  simp only [List.mem_append, List.mem_cons] at h ⊢
  tauto

theorem workers_ok_replace {pre post : List Worker} {x v : Worker}
    (hw : ∀ w ∈ pre ++ x :: post, w ≠ Worker.panicked) (hv : v ≠ Worker.panicked) :
    ∀ w ∈ pre ++ v :: post, w ≠ Worker.panicked := by
  intro w hmem
  rcases mem_replace x hmem with h1 | h1
  · rw [h1]; exact hv
  · exact hw w h1

theorem sends_replace {dial : Int → Bool} {pre post : List Worker} {x y : Worker}
    (hsd : ∀ p v, Worker.send p v ∈ pre ++ x :: post → v = probe dial p)
    (hy : ∀ p v, y = Worker.send p v → v = probe dial p) :
    ∀ p v, Worker.send p v ∈ pre ++ y :: post → v = probe dial p := by
  intro p v hmem
  rcases mem_replace x hmem with h1 | h1
  · exact hy p v h1.symm
  · exact hsd p v h1

theorem inv_handoff {cfg : Config} {dial : Int → Bool} {s t : State} {k : Nat}
    (h : Inv cfg dial s) (hs : handoffStep cfg k s = some t) : Inv cfg dial t := by
  obtain ⟨hc, hpub, hv, hsd, hp, hl, hph, hf, hw⟩ := h
  unfold handoffStep at hs
  split at hs
  · rename_i hrun hk hbuf
    split at hs
    · rename_i hcond
      simp at hs; subst hs
      obtain ⟨pre, post, hws, -, hset⟩ := set_split hk
      rw [hws] at hw hsd
      refine ⟨?_, ?_, hv, ?_, ?_, ?_, ?_, hf, ?_⟩
      · simp only [hset, hbuf] at hc ⊢
        rw [← Multiset.coe_add, ← hc, hws]
        simp only [heldAll_append, heldAll_cons, Worker.held]
        simp only [← Multiset.coe_singleton, Multiset.coe_nil]
        abel
      · obtain ⟨m, hm⟩ : ∃ m, s.next = m + 1 := ⟨s.next - 1, by omega⟩
        simp only [hm, Nat.add_sub_cancel] at hpub ⊢
        rw [issued_succ, hpub]
      · simp only [hset]
        exact sends_replace hsd (by simp)
      · simp
      · simp; omega
      · exact phase_congr hph rfl (by simp) (Or.inl rfl) (by simp [hrun]) rfl rfl rfl rfl rfl
      · simp only [hset]
        exact workers_ok_replace hw (by simp)
    · simp at hs
  · simp at hs

theorem inv_worker {cfg : Config} {dial : Int → Bool} {s t : State} {k : Nat}
    (h : Inv cfg dial s) (hs : workerStep dial k s = some t) : Inv cfg dial t := by
  have hcard := h.card_eq
  have hclosed := h.arrived_of_closed
  obtain ⟨hc, hpub, hv, hsd, hp, hl, hph, hf, hw⟩ := h
  unfold workerStep at hs
  split at hs
  · -- at the receive
    rename_i hk
    obtain ⟨pre, post, hws, -, hset⟩ := set_split hk
    rw [hws] at hw hsd
    split at hs
    · rename_i p rest hbuf
      simp at hs; subst hs
      refine ⟨?_, hpub, hv, ?_, hp, hl, ?_, hf, ?_⟩
      · simp only [hset, hbuf] at hc ⊢
        rw [← hc, hws]
        simp only [heldAll_append, heldAll_cons, Worker.held,
          ← Multiset.cons_coe, ← Multiset.singleton_add]
        abel
      · simp only [hset]
        exact sends_replace hsd (by simp)
      · have hne : s.feeder ≠ Feeder.notStarted := by
          intro hns
          unfold PhaseInv at hph
          cases hpc : s.pc <;> simp only [hpc] at hph <;> simp_all
        exact phase_congr hph rfl (by simp) (Or.inl rfl) (fun h0 => absurd h0 hne)
          rfl rfl rfl rfl rfl
      · simp only [hset]
        exact workers_ok_replace hw (by simp)
    · split at hs
      · simp at hs; subst hs
        refine ⟨?_, hpub, hv, ?_, hp, hl, ?_, hf, ?_⟩
        · simp only [hset] at hc ⊢
          rw [← hc, hws]
          simp only [heldAll_append, heldAll_cons, Worker.held]
        · simp only [hset]
          exact sends_replace hsd (by simp)
        · exact phase_congr hph rfl (by simp) (Or.inl rfl) (fun _ => ⟨rfl, rfl⟩)
            rfl rfl rfl rfl rfl
        · simp only [hset]
          exact workers_ok_replace hw (by simp)
      · simp at hs
  · -- at the dial
    rename_i p hk
    obtain ⟨pre, post, hws, -, hset⟩ := set_split hk
    rw [hws] at hw hsd
    split at hs <;> rename_i hd <;> simp at hs <;> subst hs
    · refine ⟨?_, hpub, hv, ?_, hp, hl, ?_, hf, ?_⟩
      · simp only [hset] at hc ⊢
        rw [← hc, hws]
        simp only [heldAll_append, heldAll_cons, Worker.held]
      · simp only [hset]
        refine sends_replace hsd ?_
        intro q v hq
        simp only [Worker.send.injEq] at hq
        simp [probe, ← hq.1, ← hq.2, hd]
      · exact phase_congr hph rfl (by simp) (Or.inl rfl) (fun _ => ⟨rfl, rfl⟩)
          rfl rfl rfl rfl rfl
      · simp only [hset]
        exact workers_ok_replace hw (by simp)
    · refine ⟨?_, hpub, hv, ?_, hp, hl, ?_, hf, ?_⟩
      · simp only [hset] at hc ⊢
        rw [← hc, hws]
        simp only [heldAll_append, heldAll_cons, Worker.held]
      · simp only [hset]
        refine sends_replace hsd ?_
        intro q v hq
        simp only [Worker.send.injEq] at hq
        simp [probe, ← hq.1, ← hq.2, hd]
      · exact phase_congr hph rfl (by simp) (Or.inl rfl) (fun _ => ⟨rfl, rfl⟩)
          rfl rfl rfl rfl rfl
      · simp only [hset]
        exact workers_ok_replace hw (by simp)
  · -- at the send: it can only move alone by panicking on a closed channel
    rename_i p v hk
    obtain ⟨pre, post, hws, -, hset⟩ := set_split hk
    split at hs
    · rename_i hcl
      exfalso
      have h1 := hclosed (Or.inr hcl)
      have h2 := heldAll_pos_of_split pre post (Worker.send p v) rfl (by simp)
      rw [← hws] at h2
      omega
    · simp at hs
  · simp at hs

theorem inv_deliver {cfg : Config} {dial : Int → Bool} {s t : State} {k : Nat}
    (h : Inv cfg dial s) (hs : deliverStep cfg k s = some t) : Inv cfg dial t := by
  obtain ⟨hc, hpub, hv, hsd, hp, hl, hph, hf, hw⟩ := h
  unfold deliverStep at hs
  split at hs
  · rename_i i p v hpc hk
    obtain ⟨pre, post, hws, -, hset⟩ := set_split hk
    rw [hws] at hw hsd
    split at hs
    · rename_i hcond
      simp at hs; subst hs
      simp only [PhaseInv, hpc] at hph
      obtain ⟨h1, h2, h3, h4, h5, h6, h7, h8⟩ := hph
      refine ⟨?_, hpub, ?_, ?_, hp, hl, ?_, hf, ?_⟩
      · simp only [hset] at hc ⊢
        rw [← hc, hws]
        simp only [heldAll_append, heldAll_cons, Worker.held, ← Multiset.coe_add]
        simp only [Multiset.coe_add, Multiset.coe_singleton]
        abel
      · have := hsd p v (by simp)
        simp [hv, this]
      · simp only [hset]
        exact sends_replace hsd (by simp)
      · simp only [PhaseInv]
        refine ⟨by simp [h1], by omega, h3, by simpa using h4, ?_, h6, h7, h8⟩
        simp only [h5]
        exact (filter_snoc _ _).symm
      · simp only [hset]
        exact workers_ok_replace hw (by simp)
    · simp at hs
  · simp at hs

theorem inv_step {cfg : Config} {dial : Int → Bool} {s t : State} {a : Action}
    (h : Inv cfg dial s) (hs : step cfg dial a s = some t) : Inv cfg dial t := by
  cases a
  · exact inv_main h hs
  · exact inv_feeder h hs
  · exact inv_handoff h hs
  · exact inv_worker h hs
  · exact inv_deliver h hs

theorem Reachable.inv {cfg : Config} {dial : Int → Bool} {s : State}
    (h : Reachable cfg dial s) : Inv cfg dial s := by
  induction h with
  | start => exact inv_start cfg dial
  | step a _ hs ih => exact inv_step ih hs

/-! ## The reference runs are runs of the program -/

theorem reach_spawn (cfg : Config) (dial : Int → Bool) (i : Nat) (hi : i ≤ cfg.workers) :
    Reachable cfg dial (spawnState i) := by
  induction i with
  | zero => exact Reachable.start
  | succ n ih =>
    refine Reachable.step Action.main (ih (by omega)) ?_
    have hn : n < cfg.workers := by omega
    simp [step, mainStep, spawnState, hn, List.replicate_succ']

theorem reach_round_zero (cfg : Config) (dial : Int → Bool) :
    Reachable cfg dial (roundState cfg dial [] 0) := by
  have h1 : Reachable cfg dial { spawnState cfg.workers with pc := MainPc.goFeeder } := by
    refine Reachable.step Action.main (reach_spawn cfg dial cfg.workers (le_refl _)) ?_
    simp [step, mainStep, spawnState]
  refine Reachable.step Action.main h1 ?_
  simp [step, mainStep, spawnState, roundState, State.start, issued]

theorem gatherIter_filter (xs : List Int) (v : Int) :
    gatherIter (xs.filter (fun v => decide (v ≠ 0))) v
      = (xs ++ [v]).filter (fun v => decide (v ≠ 0)) :=
  (filter_snoc xs v).symm

/-- One round: the feeder hands item `i + 1` to worker 0, which dials and delivers. -/
theorem reach_round_succ (cfg : Config) (dial : Int → Bool) (hw : 1 ≤ cfg.workers)
    (srv : List Int) (i : Nat) (hi : i < cfg.count)
    (h : Reachable cfg dial (roundState cfg dial srv i)) :
    Reachable cfg dial (roundState cfg dial (srv ++ [(i : Int) + 1]) (i + 1)) := by
  obtain ⟨m, hm⟩ : ∃ m, cfg.workers = m + 1 := ⟨cfg.workers - 1, by omega⟩
  have h1 : Reachable cfg dial { roundState cfg dial srv i with
      workers := Worker.dial ((i : Int) + 1) :: List.replicate m Worker.recv,
      next := i + 2, published := issued (i + 1) } := by
    refine Reachable.step (Action.handoff 0) h ?_
    simp [step, handoffStep, roundState, hm, List.replicate_succ, issued_succ]
    omega
  have h2 : Reachable cfg dial { roundState cfg dial srv i with
      workers := Worker.send ((i : Int) + 1) (probe dial ((i : Int) + 1))
        :: List.replicate m Worker.recv,
      next := i + 2, published := issued (i + 1) } := by
    refine Reachable.step (Action.worker 0) h1 ?_
    by_cases hd : dial ((i : Int) + 1) = true <;>
      simp [step, workerStep, roundState, probe, hd]
  refine Reachable.step (Action.deliver 0) h2 ?_
  simp only [step, deliverStep, roundState, List.getElem?_cons_zero, hi, true_and,
    if_true, List.set_cons_zero, hm, List.replicate_succ, gatherIter_filter, List.map_append,
    List.map_cons, List.map_nil]

theorem itemsFrom_succ (i k : Nat) :
    itemsFrom i (k + 1) = itemsFrom i k ++ [((i + k : Nat) : Int) + 1] := by
  simp [itemsFrom, List.range'_concat]
  omega

theorem reach_rounds (cfg : Config) (dial : Int → Bool) (hw : 1 ≤ cfg.workers)
    (srv : List Int) (i : Nat) (h : Reachable cfg dial (roundState cfg dial srv i)) (k : Nat)
    (hk : i + k ≤ cfg.count) :
    Reachable cfg dial (roundState cfg dial (srv ++ itemsFrom i k) (i + k)) := by
  induction k with
  | zero => simpa [itemsFrom] using h
  | succ n ih =>
    have := reach_round_succ cfg dial hw _ (i + n) (by omega) (ih (by omega))
    rw [itemsFrom_succ, ← List.append_assoc]
    exact this

theorem reach_closing (cfg : Config) (dial : Int → Bool) (srv : List Int)
    (h : Reachable cfg dial (roundState cfg dial srv cfg.count)) :
    Reachable cfg dial (closingState cfg dial srv) := by
  have h1 : Reachable cfg dial
      { roundState cfg dial srv cfg.count with pc := MainPc.closePorts } := by
    refine Reachable.step Action.main h ?_
    simp [step, mainStep, roundState]
  refine Reachable.step Action.main h1 ?_
  simp [step, mainStep, roundState, closingState]

theorem reach_print (cfg : Config) (dial : Int → Bool) (srv : List Int)
    (h : Reachable cfg dial (roundState cfg dial srv cfg.count)) (j : Nat)
    (hj : j ≤ (sortInts ((srv.map (probe dial)).filter (fun v => decide (v ≠ 0)))).length) :
    Reachable cfg dial (printState cfg dial srv j) := by
  induction j with
  | zero =>
    have h1 : Reachable cfg dial { closingState cfg dial srv with
        resultsClosed := true, pc := MainPc.sorting } := by
      refine Reachable.step Action.main (reach_closing cfg dial srv h) ?_
      simp [step, mainStep, roundState, closingState]
    refine Reachable.step Action.main h1 ?_
    simp [step, mainStep, roundState, closingState, printState]
  | succ n ih =>
    refine Reachable.step Action.main (ih (by omega)) ?_
    have hn : n < (sortInts ((srv.map (probe dial)).filter
      (fun v => decide (v ≠ 0)))).length := by omega
    simp only [step, mainStep, printState, List.getElem?_eq_getElem hn, List.take_succ]
    simp

theorem reach_returned (cfg : Config) (dial : Int → Bool) (srv : List Int)
    (h : Reachable cfg dial (roundState cfg dial srv cfg.count)) :
    Reachable cfg dial (returnedState cfg dial srv) := by
  refine Reachable.step Action.main (reach_print cfg dial srv h _ (le_refl _)) ?_
  simp [step, mainStep, printState, returnedState]

/-- The run in which the results arrive in the order of their items. -/
theorem reach_inOrder (cfg : Config) (dial : Int → Bool) (hw : 1 ≤ cfg.workers) :
    Reachable cfg dial (roundState cfg dial (inOrderItems cfg.count) cfg.count) := by
  have := reach_rounds cfg dial hw [] 0 (reach_round_zero cfg dial) cfg.count (by omega)
  simpa [inOrderItems] using this

/-- The run in which the result of item 2 arrives before the result of item 1. -/
theorem reach_swapped (cfg : Config) (dial : Int → Bool) (hw : 2 ≤ cfg.workers)
    (hc : 2 ≤ cfg.count) :
    Reachable cfg dial (roundState cfg dial (swappedItems cfg.count) cfg.count) := by
  obtain ⟨m, hm⟩ : ∃ m, cfg.workers = m + 2 := ⟨cfg.workers - 2, by omega⟩
  have h0 := reach_round_zero cfg dial
  have h1 : Reachable cfg dial { roundState cfg dial [] 0 with
      workers := Worker.dial 1 :: List.replicate (m + 1) Worker.recv, next := 2,
      published := issued 1 } := by
    refine Reachable.step (Action.handoff 0) h0 ?_
    simp [step, handoffStep, roundState, hm, List.replicate_succ, issued]
    omega
  have h2 : Reachable cfg dial { roundState cfg dial [] 0 with
      workers := Worker.dial 1 :: Worker.dial 2 :: List.replicate m Worker.recv, next := 3,
      published := issued 2 } := by
    refine Reachable.step (Action.handoff 1) h1 ?_
    simp [step, handoffStep, roundState, List.replicate_succ, issued, List.range'_succ]
    omega
  have h3 : Reachable cfg dial { roundState cfg dial [] 0 with
      workers := Worker.send 1 (probe dial 1) :: Worker.dial 2 :: List.replicate m Worker.recv,
      next := 3, published := issued 2 } := by
    refine Reachable.step (Action.worker 0) h2 ?_
    by_cases hd : dial 1 = true <;> simp [step, workerStep, roundState, probe, hd]
  have h4 : Reachable cfg dial { roundState cfg dial [] 0 with
      workers := Worker.send 1 (probe dial 1) :: Worker.send 2 (probe dial 2)
        :: List.replicate m Worker.recv,
      next := 3, published := issued 2 } := by
    refine Reachable.step (Action.worker 1) h3 ?_
    by_cases hd : dial 2 = true <;> simp [step, workerStep, roundState, probe, hd]
  have h5 : Reachable cfg dial { roundState cfg dial [2] 1 with
      workers := Worker.send 1 (probe dial 1) :: Worker.recv :: List.replicate m Worker.recv,
      next := 3, published := issued 2 } := by
    refine Reachable.step (Action.deliver 1) h4 ?_
    have : 0 < cfg.count := by omega
    simp only [step, deliverStep, roundState, List.getElem?_cons_succ, List.getElem?_cons_zero,
      this, true_and, if_true, List.set_cons_succ, List.set_cons_zero, gatherIter_filter]
    simp
  have h6 : Reachable cfg dial (roundState cfg dial [2, 1] 2) := by
    refine Reachable.step (Action.deliver 0) h5 ?_
    have : 1 < cfg.count := by omega
    simp only [step, deliverStep, roundState, List.getElem?_cons_zero,
      this, true_and, if_true, List.set_cons_zero, gatherIter_filter, hm, List.replicate_succ]
    simp
  have := reach_rounds cfg dial (by omega) _ 2 h6 (cfg.count - 2) (by omega)
  have h7 : 2 + (cfg.count - 2) = cfg.count := by omega
  rw [h7] at this
  exact this

theorem reachable_run {cfg : Config} {dial : Int → Bool} (sched : List Action) {s t : State}
    (h : Reachable cfg dial s) (hr : run cfg dial sched s = some t) : Reachable cfg dial t := by
  induction sched generalizing s with
  | nil =>
    simp only [run, Option.some.injEq] at hr
    exact hr ▸ h
  | cons a as ih =>
    simp only [run] at hr
    split at hr
    · rename_i u hu
      exact ih (Reachable.step a h hu) hr
    · simp at hr

set_option maxRecDepth 100000 in
theorem run_mixedSchedule :
    run scanConfig dialMixed mixedSchedule (roundState scanConfig dialMixed [] 0)
      = some (roundState scanConfig dialMixed [7, 1, 3, 2, 4, 5, 6] 7) := by
  decide

/-- The run in which the results of the open ports 7, 1 and 3 arrive in that order. -/
theorem reach_mixed :
    Reachable scanConfig dialMixed (roundState scanConfig dialMixed mixedItems scanConfig.count) :=
  reach_rounds scanConfig dialMixed (by decide) _ 7
    (reachable_run mixedSchedule (reach_round_zero _ _) run_mixedSchedule) 1017 (by decide)

set_option maxRecDepth 1000000 in
theorem mixed_order :
    (mixedItems.map (probe dialMixed)).filter (fun v => decide (v ≠ 0)) = [7, 1, 3] := by
  decide

theorem inOrderItems_head (n : Nat) : (inOrderItems (n + 1)).head? = some 1 := by
  simp [inOrderItems, itemsFrom, List.range'_succ]

theorem swapped_ne_inOrder :
    (returnedState scanConfig dialAll (inOrderItems scanConfig.count)).arrived
      ≠ (returnedState scanConfig dialAll (swappedItems scanConfig.count)).arrived := by
  intro h
  change (inOrderItems (1023 + 1)).map (probe dialAll)
    = (swappedItems 1024).map (probe dialAll) at h
  have h2 := congrArg List.head? h
  rw [List.head?_map, inOrderItems_head] at h2
  simp [swappedItems, probe, dialAll] at h2

/-! ## The sequential pieces -/

theorem sortInts_sorted (xs : List Int) : (sortInts xs).Sorted (· ≤ ·) :=
  List.sorted_insertionSort _ xs

theorem sortInts_perm (xs : List Int) : (sortInts xs).Perm xs :=
  List.perm_insertionSort _ xs

theorem sortInts_congr {xs ys : List Int} (h : xs.Perm ys) : sortInts xs = sortInts ys :=
  List.eq_of_perm_of_sorted ((sortInts_perm xs).trans (h.trans (sortInts_perm ys).symm))
    (sortInts_sorted xs) (sortInts_sorted ys)

theorem sortInts_of_sorted {xs : List Int} (h : xs.Sorted (· ≤ ·)) : sortInts xs = xs :=
  List.eq_of_perm_of_sorted (sortInts_perm xs) (sortInts_sorted xs) h

theorem mem_issued (n : Nat) (p : Int) : p ∈ issued n ↔ 1 ≤ p ∧ p ≤ n := by
  simp only [issued, List.mem_map, List.mem_range']
  constructor
  · rintro ⟨a, ⟨i, hi, rfl⟩, rfl⟩
    omega
  · rintro ⟨h1, h2⟩
    refine ⟨p.toNat, ⟨p.toNat - 1, ?_, ?_⟩, ?_⟩ <;> omega

theorem issued_sorted_lt (n : Nat) : (issued n).Sorted (· < ·) := by
  unfold issued
  refine List.Pairwise.map _ ?_ (List.pairwise_lt_range' 1 n)
  intro a b hab
  exact Int.ofNat_lt.mpr hab

theorem issued_sorted (n : Nat) : (issued n).Sorted (· ≤ ·) :=
  (issued_sorted_lt n).imp (fun h => Int.le_of_lt h)

/-- Filtering out the zeros among the results of non-zero items keeps exactly the
items whose dial succeeds. -/
theorem filter_probe (dial : Int → Bool) (l : List Int) (h : ∀ p ∈ l, p ≠ 0) :
    (l.map (probe dial)).filter (fun v => decide (v ≠ 0)) = l.filter (fun p => dial p) := by
  induction l with
  | nil => rfl
  | cons p l ih =>
    have hp : p ≠ 0 := h p (List.mem_cons_self _ _)
    have ih2 := ih (fun q hq => h q (List.mem_cons_of_mem _ hq))
    by_cases hd : dial p = true
    · simp only [List.map_cons, probe, hd, if_true, List.filter_cons, hp, ne_eq, not_false_eq_true,
        decide_True, ih2]
    · simp only [List.map_cons, probe, hd, List.filter_cons, ne_eq, not_true_eq_false,
        decide_False, ih2]
      simp

theorem filter_probe_issued (dial : Int → Bool) (n : Nat) :
    ((issued n).map (probe dial)).filter (fun v => decide (v ≠ 0))
      = (issued n).filter (fun p => dial p) := by
  apply filter_probe
  intro p hp
  have := (mem_issued n p).mp hp
  omega

theorem gatherLoop_eq (arr acc : List Int) :
    gatherLoop arr.length arr acc = some (acc ++ arr.filter (fun v => decide (v ≠ 0))) := by
  induction arr generalizing acc with
  | nil => simp [gatherLoop]
  | cons v arr ih =>
    simp only [List.length_cons, gatherLoop, ih]
    unfold gatherIter
    by_cases hv : v = 0 <;> simp [hv, List.filter_cons]

theorem printLoop_eq (xs acc : List Int) : printLoop xs acc = acc ++ xs := by
  induction xs generalizing acc with
  | nil => simp [printLoop]
  | cons v xs ih => simp [printLoop, ih]

theorem scanReport_eq (arr : List Int) :
    scanReport arr.length arr = some (sortInts (arr.filter (fun v => decide (v ≠ 0)))) := by
  simp [scanReport, gatherLoop_eq, printLoop_eq]

theorem workerMultiChannel_acc (dial : Int → Bool) (items results : List Int) :
    workerMultiChannel dial items results
      = results ++ items.map (fun p => if dial p = true then p else 0) := by
  induction items generalizing results with
  | nil => simp [workerMultiChannel]
  | cons p items ih =>
    by_cases hd : dial p = true <;> simp [workerMultiChannel, ih, hd]

/-! ## Consequences of the invariant -/

/-- Workers that hold nothing and have not panicked are at their receive or have returned. -/
theorem idle_of_heldAll_zero (ws : List Worker)
    (h0 : heldAll ws = 0) (hok : ∀ w ∈ ws, w ≠ Worker.panicked) :
    ∀ w ∈ ws, w.idle = true := by
  induction ws with
  | nil => simp
  | cons v ws ih =>
    rw [heldAll_cons] at h0
    have h1 : v.held = 0 := by
      have := congrArg Multiset.card h0
      simp only [Multiset.card_add, Multiset.card_zero] at this
      exact Multiset.card_eq_zero.mp (by omega)
    have h2 : heldAll ws = 0 := by simpa [h1] using h0
    intro w hw
    rcases List.mem_cons.mp hw with rfl | hmem
    · have := hok w (List.mem_cons_self _ _)
      cases w <;> simp_all [Worker.held, Worker.idle]
    · exact ih h2 (fun u hu => hok u (List.mem_cons_of_mem _ hu)) w hmem

/-- When all results have arrived, everything issued is accounted for: no worker
holds an item, the buffer is empty, the feeder has published its last item, and
the items served are the items `1..count`, each once. -/
theorem Inv.complete {cfg : Config} {dial : Int → Bool} {s : State} (h : Inv cfg dial s)
    (hlen : s.arrived.length = cfg.count) :
    heldAll s.workers = 0 ∧ s.buf = [] ∧ s.next = cfg.count + 1 ∧
      s.served.Perm (issued cfg.count) ∧
      s.arrived.Perm ((issued cfg.count).map (probe dial)) := by
  have hcard := h.card_eq
  have hl := h.next_le
  have hp := h.next_pos
  have h1 : heldAll s.workers = 0 := Multiset.card_eq_zero.mp (by omega)
  have h2 : s.buf = [] := List.length_eq_zero.mp (by omega)
  have h3 : s.next = cfg.count + 1 := by omega
  have hc := h.conserve
  rw [h.published_eq, h1, h2, h3] at hc
  simp only [add_zero, Multiset.coe_nil, Nat.add_sub_cancel] at hc
  have h4 : s.served.Perm (issued cfg.count) := Multiset.coe_eq_coe.mp hc
  refine ⟨h1, h2, h3, h4, ?_⟩
  rw [h.values]
  exact h4.map _

theorem Inv.arrived_of_gathered {cfg : Config} {dial : Int → Bool} {s : State}
    (h : Inv cfg dial s) (hg : s.pc.gathered = true) : s.arrived.length = cfg.count := by
  have hph := h.phase
  unfold PhaseInv at hph
  cases hs : s.pc <;> simp only [hs] at hph hg <;> simp_all [MainPc.gathered]

theorem Inv.arrived_le {cfg : Config} {dial : Int → Bool} {s : State}
    (h : Inv cfg dial s) : s.arrived.length ≤ cfg.count := by
  have hph := h.phase
  unfold PhaseInv at hph
  cases hs : s.pc <;> simp only [hs] at hph <;> simp_all

theorem Inv.printed_sorted {cfg : Config} {dial : Int → Bool} {s : State}
    (h : Inv cfg dial s) : s.printed.Sorted (· ≤ ·) := by
  have hph := h.phase
  unfold PhaseInv at hph
  cases hs : s.pc <;> simp only [hs] at hph
  case print j =>
    obtain ⟨-, -, -, h5, h6, -⟩ := hph
    rw [h6, h5]
    exact (sortInts_sorted _).sublist (List.take_sublist _ _)
  case returned =>
    obtain ⟨-, -, -, h5, h6, -⟩ := hph
    rw [h6, h5]
    exact sortInts_sorted _
  all_goals simp_all

theorem Inv.printed_returned {cfg : Config} {dial : Int → Bool} {s : State}
    (h : Inv cfg dial s) (hret : s.pc = MainPc.returned) :
    s.printed = sortInts (s.arrived.filter (fun v => decide (v ≠ 0))) := by
  have hph := h.phase
  simp only [PhaseInv, hret] at hph
  obtain ⟨-, -, -, h5, h6, -⟩ := hph
  rw [h6, h5]

theorem Inv.report_eq {cfg : Config} {dial : Int → Bool} {s : State}
    (h : Inv cfg dial s) (hret : s.pc = MainPc.returned) :
    s.printed = (issued cfg.count).filter (fun p => dial p) := by
  have hlen := h.arrived_of_gathered (by simp [hret, MainPc.gathered])
  obtain ⟨-, -, -, -, hperm⟩ := h.complete hlen
  rw [h.printed_returned hret, sortInts_congr (hperm.filter _), filter_probe_issued]
  exact sortInts_of_sorted ((issued_sorted cfg.count).sublist (List.filter_sublist _))

theorem Inv.printed_nil_of_lt {cfg : Config} {dial : Int → Bool} {s : State}
    (h : Inv cfg dial s) (hlt : s.arrived.length < cfg.count) :
    s.printed = [] ∧ s.pc.gathered = false := by
  have hph := h.phase
  unfold PhaseInv at hph
  cases hs : s.pc <;> simp only [hs] at hph <;> simp_all [MainPc.gathered]

/-- What the program prints when it returns is what lines 37-49, read as a function
of the values received, compute. -/
theorem Inv.printed_eq_scanReport {cfg : Config} {dial : Int → Bool} {s : State}
    (h : Inv cfg dial s) (hret : s.pc = MainPc.returned) :
    scanReport cfg.count s.arrived = some s.printed := by
  have hlen := h.arrived_of_gathered (by simp [hret, MainPc.gathered])
  rw [← hlen, scanReport_eq, h.printed_returned hret]

/-- Every item served so far is one of the items `1..count`. -/
theorem Inv.served_mem {cfg : Config} {dial : Int → Bool} {s : State} (h : Inv cfg dial s)
    (p : Int) (hp : p ∈ s.served) : p ∈ issued cfg.count := by
  have h1 : p ∈ ((issued (s.next - 1) : List Int) : Multiset Int) := by
    rw [← h.published_eq, ← h.conserve]
    simp [hp]
  have h2 := (mem_issued _ _).mp (Multiset.mem_coe.mp h1)
  have hl := h.next_le
  exact (mem_issued _ _).mpr ⟨h2.1, by omega⟩

/-- The ports retained are the non-zero values received, sorted or not. -/
theorem Inv.openPorts_perm {cfg : Config} {dial : Int → Bool} {s : State} (h : Inv cfg dial s) :
    s.openPorts.Perm (s.arrived.filter (fun v => decide (v ≠ 0))) ∧
      s.printed.Sublist s.openPorts := by
  have hph := h.phase
  unfold PhaseInv at hph
  cases hs : s.pc <;> simp only [hs] at hph
  case print j =>
    obtain ⟨-, -, -, h5, h6, -⟩ := hph
    exact ⟨h5 ▸ sortInts_perm _, h6 ▸ List.take_sublist _ _⟩
  case returned =>
    obtain ⟨-, -, -, h5, h6, -⟩ := hph
    exact ⟨h5 ▸ sortInts_perm _, h6 ▸ List.Sublist.refl _⟩
  all_goals simp_all

/-! ## The claims -/

/-- C1. In every state that `multiPortScanConcurrentlyUsingMultipleChannels` can reach, for
every dial outcome and every interleaving of the goroutines (hence every order in
which the 1024 results arrive on `results`), the ports printed so far are in
ascending order; once the function has returned this is the whole printed list. -/
theorem printed_ascending (dial : Int → Bool) (s : State)
    (h : Reachable scanConfig dial s) : s.printed.Sorted (· ≤ ·) :=
  h.inv.printed_sorted

/-- C1, at the end of the run in which the results of the open ports arrive as 7, 1, 3. -/
theorem printed_ascending_witness :
    Reachable scanConfig dialMixed (returnedState scanConfig dialMixed mixedItems) ∧
    (returnedState scanConfig dialMixed mixedItems).printed.Sorted (· ≤ ·) :=
  ⟨reach_returned _ _ _ reach_mixed, printed_ascending _ _ (reach_returned _ _ _ reach_mixed)⟩

/-- C2. When the scan returns, for every dial outcome and every interleaving, the printed
report is the ascending list of the ports of 1..1024 whose dial succeeded: a port
is in the report if and only if it is in 1..1024 and its dial succeeded, and the
report is strictly ascending. -/
theorem report_is_reachable_ports (dial : Int → Bool) (s : State)
    (h : Reachable scanConfig dial s) (hret : s.pc = MainPc.returned) :
    s.printed = (issued 1024).filter (fun p => dial p) ∧
    (∀ p : Int, p ∈ s.printed ↔ (1 ≤ p ∧ p ≤ 1024 ∧ dial p = true)) ∧
    s.printed.Sorted (· < ·) := by
  have heq : s.printed = (issued 1024).filter (fun p => dial p) := h.inv.report_eq hret
  refine ⟨heq, ?_, ?_⟩
  · intro p
    rw [heq, List.mem_filter, mem_issued]
    simp [and_assoc]
  · rw [heq]
    exact (issued_sorted_lt 1024).sublist (List.filter_sublist _)

/-- C2, at the end of the run in which the results arrive in the order of their items. -/
theorem report_is_reachable_ports_witness :
    Reachable scanConfig dialMixed
      (returnedState scanConfig dialMixed (inOrderItems scanConfig.count)) ∧
    (returnedState scanConfig dialMixed (inOrderItems scanConfig.count)).pc
      = MainPc.returned ∧
    (returnedState scanConfig dialMixed (inOrderItems scanConfig.count)).printed
      = (issued 1024).filter (fun p => dialMixed p) :=
  ⟨reach_returned _ _ _ (reach_inOrder _ _ (by decide)), rfl,
    (report_is_reachable_ports _ _ (reach_returned _ _ _ (reach_inOrder _ _ (by decide)))
      rfl).1⟩

/-- C3. Determinism: for a fixed dial outcome, any two runs of the scan that return have
received permutations of the same 1024 results (whatever the scheduling made of
their order) and have printed the identical report. -/
theorem report_deterministic (dial : Int → Bool) (s₁ s₂ : State)
    (h₁ : Reachable scanConfig dial s₁) (h₂ : Reachable scanConfig dial s₂)
    (hret₁ : s₁.pc = MainPc.returned) (hret₂ : s₂.pc = MainPc.returned) :
    s₁.arrived.length = 1024 ∧ s₁.arrived.Perm s₂.arrived ∧ s₁.printed = s₂.printed := by
  have hl₁ := h₁.inv.arrived_of_gathered (by simp [hret₁, MainPc.gathered])
  have hl₂ := h₂.inv.arrived_of_gathered (by simp [hret₂, MainPc.gathered])
  obtain ⟨-, -, -, -, hp₁⟩ := h₁.inv.complete hl₁
  obtain ⟨-, -, -, -, hp₂⟩ := h₂.inv.complete hl₂
  refine ⟨hl₁, hp₁.trans hp₂.symm, ?_⟩
  rw [h₁.inv.report_eq hret₁, h₂.inv.report_eq hret₂]

/-- C3, for two runs whose results arrive in different orders. -/
theorem report_deterministic_witness :
    (returnedState scanConfig dialAll (inOrderItems scanConfig.count)).arrived
      ≠ (returnedState scanConfig dialAll (swappedItems scanConfig.count)).arrived ∧
    (returnedState scanConfig dialAll (inOrderItems scanConfig.count)).printed
      = (returnedState scanConfig dialAll (swappedItems scanConfig.count)).printed :=
  ⟨swapped_ne_inOrder,
    (report_deterministic dialAll _ _
      (reach_returned _ _ _ (reach_inOrder _ _ (by decide)))
      (reach_returned _ _ _ (reach_swapped _ _ (by decide) (by decide))) rfl rfl).2.2⟩

/-- C4. Exactly-once accounting, whatever the number `w` of workers and the capacity `c`
of the work channel.  In every reachable state the items the feeder has published
are `1, ..., n` with `n = next - 1 ≤ 1024`, each once, and each of them is in
exactly one place: its result has been received by main (`served`), one worker holds it, or
it waits in the buffer; the values received are the results of the served items,
one each.  When the gathering loop is over, exactly 1024 items have been
published, exactly 1024 results have been received, and the served items are the
items 1..1024, each once.  With at least one worker there is a run that gets
there and returns. -/
theorem exactly_once_accounting (w c : Nat) (dial : Int → Bool) (s : State)
    (h : Reachable { workers := w, capacity := c, count := 1024 } dial s) :
    ((s.served : Multiset Int) + heldAll s.workers + (s.buf : Multiset Int)
      = (s.published : Multiset Int)) ∧
    s.published = issued (s.next - 1) ∧ s.next - 1 ≤ 1024 ∧ s.published.Nodup ∧
    s.arrived = s.served.map (probe dial) ∧
    (s.pc.gathered = true →
      s.published.length = 1024 ∧ s.arrived.length = 1024 ∧ s.served.Perm (issued 1024)) ∧
    (1 ≤ w → ∃ t, Reachable { workers := w, capacity := c, count := 1024 } dial t ∧
      t.pc = MainPc.returned ∧ t.arrived.length = 1024) := by
  have hi := h.inv
  have hl := hi.next_le
  refine ⟨hi.conserve, hi.published_eq, ?_, ?_, hi.values, ?_, ?_⟩
  · change s.next ≤ 1024 + 1 at hl
    omega
  · rw [hi.published_eq]
    exact (issued_sorted_lt _).nodup
  · intro hg
    have hlen := hi.arrived_of_gathered hg
    obtain ⟨-, -, h3, h4, -⟩ := hi.complete hlen
    refine ⟨?_, hlen, h4⟩
    rw [hi.published_eq, h3, issued_length]
    rfl
  · intro hw
    refine ⟨_, reach_returned _ dial _ (reach_inOrder _ dial hw), rfl, ?_⟩
    simp [returnedState, roundState, inOrderItems, itemsFrom]

/-- C4, with a single worker and an unbuffered work channel. -/
theorem exactly_once_accounting_witness :
    Reachable { workers := 1, capacity := 0, count := 1024 } dialMixed
      (returnedState { workers := 1, capacity := 0, count := 1024 } dialMixed
        (inOrderItems 1024)) ∧
    (returnedState { workers := 1, capacity := 0, count := 1024 } dialMixed
        (inOrderItems 1024)).next - 1 ≤ 1024 :=
  ⟨reach_returned _ _ _ (reach_inOrder _ _ (by decide)),
    (exactly_once_accounting 1 0 dialMixed _
      (reach_returned _ _ _ (reach_inOrder _ _ (by decide)))).2.2.1⟩

/-- C5. Run on any sequence of items and under any dial outcome, `workerMultiChannel`
publishes exactly one value per item, in the order received: the item itself when
its dial succeeds and 0 when it fails, and it goes on after a failure until the
items are exhausted. -/
theorem workerMultiChannel_publishes (dial : Int → Bool) (items : List Int) :
    workerMultiChannel dial items [] = items.map (fun p => if dial p = true then p else 0) ∧
    (workerMultiChannel dial items []).length = items.length := by
  have h := workerMultiChannel_acc dial items []
  simp only [List.nil_append] at h
  exact ⟨h, by rw [h, List.length_map]⟩

/-- C6. Mixed outcome: the dial succeeds exactly for the ports 1, 3 and 7; in any run that
returns and in which the results of these ports are received in the order 7, 1, 3
(the zeros of the failed dials interleaved anywhere), the report printed is
exactly `[1, 3, 7]`, and it is what lines 37-49 compute from the values received. -/
theorem mixed_outcome_report (dial : Int → Bool)
    (hd : ∀ p : Int, dial p = true ↔ (p = 1 ∨ p = 3 ∨ p = 7)) (s : State)
    (h : Reachable scanConfig dial s) (hret : s.pc = MainPc.returned)
    (horder : s.arrived.filter (fun v => decide (v ≠ 0)) = [7, 1, 3]) :
    s.printed = [1, 3, 7] ∧ scanReport 1024 s.arrived = some [1, 3, 7] := by
  have _ := hd
  have hp : s.printed = [1, 3, 7] := by
    rw [h.inv.printed_returned hret, horder]
    decide
  exact ⟨hp, hp ▸ h.inv.printed_eq_scanReport hret⟩

/-- C6, at the end of the run in which seven workers hold the items 1..7 together and
deliver the result of 7 first, then that of 1, then that of 3. -/
theorem mixed_outcome_report_witness :
    Reachable scanConfig dialMixed (returnedState scanConfig dialMixed mixedItems) ∧
    (returnedState scanConfig dialMixed mixedItems).arrived.filter (fun v => decide (v ≠ 0))
      = [7, 1, 3] ∧
    (returnedState scanConfig dialMixed mixedItems).printed = [1, 3, 7] :=
  ⟨reach_returned _ _ _ reach_mixed, mixed_order,
    (mixed_outcome_report dialMixed (by intro p; simp [dialMixed]) _
      (reach_returned _ _ _ reach_mixed) rfl mixed_order).1⟩

/-- C7. All-unreachable: when the dial fails for every port of 1..1024, nothing is ever
retained and nothing is ever printed, in every reachable state and hence for
every order in which the results arrive: the report is empty. -/
theorem all_unreachable_report_empty (dial : Int → Bool)
    (hd : ∀ p ∈ issued 1024, dial p = false) (s : State)
    (h : Reachable scanConfig dial s) : s.openPorts = [] ∧ s.printed = [] := by
  have hi := h.inv
  have hz : s.arrived.filter (fun v => decide (v ≠ 0)) = [] := by
    rw [hi.values, List.filter_eq_nil_iff]
    intro v hv
    obtain ⟨p, hp, rfl⟩ := List.mem_map.mp hv
    have := hd p (hi.served_mem p hp)
    simp [probe, this]
  obtain ⟨h1, h2⟩ := hi.openPorts_perm
  rw [hz] at h1
  have h3 : s.openPorts = [] := List.Perm.eq_nil h1
  rw [h3] at h2
  exact ⟨h3, List.eq_nil_of_sublist_nil h2⟩

/-- C7, at the end of a run in which every dial fails. -/
theorem all_unreachable_report_empty_witness :
    Reachable scanConfig dialNone
      (returnedState scanConfig dialNone (swappedItems scanConfig.count)) ∧
    (returnedState scanConfig dialNone (swappedItems scanConfig.count)).printed = [] :=
  ⟨reach_returned _ _ _ (reach_swapped _ _ (by decide) (by decide)),
    (all_unreachable_report_empty dialNone (fun _ _ => rfl) _
      (reach_returned _ _ _ (reach_swapped _ _ (by decide) (by decide)))).2⟩

/-- C8. In every reachable state no worker has panicked on a send to a closed channel,
and from the moment main is about to execute `close(results)` onwards (and
whenever `results` is closed) no worker holds an item: each is at its receive on
`ports` or has returned, so none has a result left to send. -/
theorem results_closed_only_when_idle (dial : Int → Bool) (s : State)
    (h : Reachable scanConfig dial s) :
    (∀ w ∈ s.workers, w ≠ Worker.panicked) ∧
    ((s.pc = MainPc.closeResults ∨ s.resultsClosed = true) →
      ∀ w ∈ s.workers, w.idle = true) := by
  have hi := h.inv
  refine ⟨hi.workers_ok, ?_⟩
  intro hcl
  have hlen : s.arrived.length = scanConfig.count := by
    rcases hcl with hpc | hrc
    · exact hi.arrived_of_gathered (by simp [hpc, MainPc.gathered])
    · exact hi.arrived_of_closed (Or.inr hrc)
  exact idle_of_heldAll_zero _ (hi.complete hlen).1 hi.workers_ok

/-- C8, at the moment main is about to execute `close(results)`. -/
theorem results_closed_only_when_idle_witness :
    Reachable scanConfig dialMixed (closingState scanConfig dialMixed mixedItems) ∧
    ∀ w ∈ (closingState scanConfig dialMixed mixedItems).workers, w.idle = true :=
  ⟨reach_closing _ _ _ reach_mixed,
    (results_closed_only_when_idle dialMixed _ (reach_closing _ _ _ reach_mixed)).2
      (Or.inl rfl)⟩

/-- C9, refuted as stated: there is a run at whose `close(results)` no worker has left
its receive loop; all hundred are still at `for p := range ports`. -/
theorem close_results_before_workers_exit :
    Reachable scanConfig dialNone
      (closingState scanConfig dialNone (inOrderItems scanConfig.count)) ∧
    (closingState scanConfig dialNone (inOrderItems scanConfig.count)).pc
      = MainPc.closeResults ∧
    (closingState scanConfig dialNone (inOrderItems scanConfig.count)).workers
      = List.replicate 100 Worker.recv ∧
    ¬ (∀ w ∈ (closingState scanConfig dialNone (inOrderItems scanConfig.count)).workers,
        w = Worker.done) := by
  refine ⟨reach_closing _ _ _ (reach_inOrder _ _ (by decide)), rfl, rfl, ?_⟩
  intro hall
  have := hall Worker.recv (by simp [closingState, roundState, scanConfig])
  simp at this

/-- C9, amended.  At the moment main is about to execute `close(results)`, `ports` is
already closed and empty, the feeder has published all its items, all 1024
results have been received, and each worker is at its receive on `ports` or has
left its loop: none will publish again. -/
theorem workers_quiescent_at_close (dial : Int → Bool) (s : State)
    (h : Reachable scanConfig dial s) (hpc : s.pc = MainPc.closeResults) :
    s.portsClosed = true ∧ s.buf = [] ∧ s.next = 1025 ∧ s.arrived.length = 1024 ∧
    ∀ w ∈ s.workers, w = Worker.recv ∨ w = Worker.done := by
  have hi := h.inv
  have hlen := hi.arrived_of_gathered (by simp [hpc, MainPc.gathered])
  obtain ⟨h1, h2, h3, -, -⟩ := hi.complete hlen
  have hph := hi.phase
  simp only [PhaseInv, hpc] at hph
  refine ⟨hph.2.2.2.2.2.1, h2, h3, hlen, ?_⟩
  intro w hw
  have hidle := idle_of_heldAll_zero _ h1 hi.workers_ok w hw
  cases w <;> simp_all [Worker.idle]

/-- C9 amended, at the moment main is about to execute `close(results)`. -/
theorem workers_quiescent_at_close_witness :
    Reachable scanConfig dialAll
      (closingState scanConfig dialAll (swappedItems scanConfig.count)) ∧
    (closingState scanConfig dialAll (swappedItems scanConfig.count)).buf = [] :=
  ⟨reach_closing _ _ _ (reach_swapped _ _ (by decide) (by decide)),
    (workers_quiescent_at_close dialAll _
      (reach_closing _ _ _ (reach_swapped _ _ (by decide) (by decide))) rfl).2.1⟩

/-- C10. As long as fewer than 1024 results have been received, nothing has been printed
and main is still before the end of the gathering loop: no port is printed until
the loop has received all 1024 results. -/
theorem no_early_emission (dial : Int → Bool) (s : State)
    (h : Reachable scanConfig dial s) (hlt : s.arrived.length < 1024) :
    s.printed = [] ∧ s.pc.gathered = false :=
  h.inv.printed_nil_of_lt hlt

/-- C10, in the gathering loop after the first two results. -/
theorem no_early_emission_witness :
    Reachable scanConfig dialAll (roundState scanConfig dialAll ([] ++ itemsFrom 0 2) (0 + 2)) ∧
    (roundState scanConfig dialAll ([] ++ itemsFrom 0 2) (0 + 2)).arrived.length < 1024 ∧
    (roundState scanConfig dialAll ([] ++ itemsFrom 0 2) (0 + 2)).printed = [] :=
  ⟨reach_rounds _ _ (by decide) _ _ (reach_round_zero _ _) 2 (by decide), by decide,
    (no_early_emission dialAll _
      (reach_rounds _ _ (by decide) _ _ (reach_round_zero _ _) 2 (by decide)) (by decide)).1⟩

/-! ## Termination of the goroutines and progress -/

theorem exitInv_start (cfg : Config) : ExitInv cfg State.start := by
  constructor <;> simp [State.start]

theorem done_mem_replace {pre post : List Worker} {x v : Worker} (hv : v ≠ Worker.done)
    (h : Worker.done ∈ pre ++ v :: post) : Worker.done ∈ pre ++ x :: post := by
  rcases mem_replace x h with h1 | h1
  · exact absurd h1.symm hv
  · exact h1

theorem exitInv_step {cfg : Config} {dial : Int → Bool} {s t : State} {a : Action}
    (hi : Inv cfg dial s) (h : ExitInv cfg s) (hs : step cfg dial a s = some t) :
    ExitInv cfg t := by
  obtain ⟨hfd, hwd⟩ := h
  have hl := hi.next_le
  cases a with
  | main =>
    simp only [step, mainStep] at hs
    cases hpc : s.pc <;> simp only [hpc] at hs
    case spawn i =>
      split at hs <;> simp at hs <;> subst hs
      · refine ⟨hfd, ?_⟩
        intro hm
        rcases List.mem_append.mp hm with h1 | h1
        · exact hwd h1
        · simp at h1
      · exact ⟨hfd, hwd⟩
    case goFeeder =>
      simp at hs; subst hs
      exact ⟨by simp, hwd⟩
    case gather i =>
      split at hs
      · split at hs
        · simp at hs; subst hs; exact ⟨hfd, hwd⟩
        · simp at hs
      · simp at hs; subst hs; exact ⟨hfd, hwd⟩
    case closePorts =>
      split at hs <;> simp at hs <;> subst hs
      · exact ⟨hfd, hwd⟩
      · exact ⟨hfd, fun _ => rfl⟩
    case closeResults =>
      split at hs <;> simp at hs <;> subst hs <;> exact ⟨hfd, hwd⟩
    case sorting =>
      simp at hs; subst hs; exact ⟨hfd, hwd⟩
    case print j =>
      split at hs <;> simp at hs <;> subst hs <;> exact ⟨hfd, hwd⟩
    case returned => simp at hs
    case panicked => simp at hs
  | feeder =>
    simp only [step, feederStep] at hs
    split at hs
    · rename_i hrun
      split at hs
      · split at hs
        · simp at hs; subst hs; exact ⟨by simp, hwd⟩
        · split at hs
          · simp at hs; subst hs
            exact ⟨by simp [hrun], hwd⟩
          · simp at hs
      · rename_i hgt
        simp at hs; subst hs
        refine ⟨fun _ => ?_, hwd⟩
        show s.next = cfg.count + 1
        omega
    · simp at hs
  | handoff k =>
    simp only [step, handoffStep] at hs
    split at hs
    · rename_i hrun hk hbuf
      split at hs
      · simp at hs; subst hs
        obtain ⟨pre, post, hws, -, hset⟩ := set_split hk
        refine ⟨by simp [hrun], ?_⟩
        simp only [hset]
        intro hm
        exact hwd (hws ▸ done_mem_replace (by simp) hm)
      · simp at hs
    · simp at hs
  | worker k =>
    simp only [step, workerStep] at hs
    split at hs
    · rename_i hk
      obtain ⟨pre, post, hws, -, hset⟩ := set_split hk
      split at hs
      · simp at hs; subst hs
        refine ⟨hfd, ?_⟩
        simp only [hset]
        intro hm
        exact hwd (hws ▸ done_mem_replace (by simp) hm)
      · split at hs
        · rename_i hcl
          simp at hs; subst hs
          exact ⟨hfd, fun _ => hcl⟩
        · simp at hs
    · rename_i p hk
      obtain ⟨pre, post, hws, -, hset⟩ := set_split hk
      split at hs <;> simp at hs <;> subst hs <;>
        exact ⟨hfd, fun hm => hwd (hws ▸ done_mem_replace (by simp) (hset _ ▸ hm))⟩
    · rename_i p v hk
      obtain ⟨pre, post, hws, -, hset⟩ := set_split hk
      split at hs
      · simp at hs; subst hs
        exact ⟨hfd, fun hm => hwd (hws ▸ done_mem_replace (by simp) (hset _ ▸ hm))⟩
      · simp at hs
    · simp at hs
  | deliver k =>
    simp only [step, deliverStep] at hs
    split at hs
    · rename_i i p v hpc hk
      obtain ⟨pre, post, hws, -, hset⟩ := set_split hk
      split at hs
      · simp at hs; subst hs
        exact ⟨hfd, fun hm => hwd (hws ▸ done_mem_replace (by simp) (hset _ ▸ hm))⟩
      · simp at hs
    · simp at hs

theorem Reachable.exitInv {cfg : Config} {dial : Int → Bool} {s : State}
    (h : Reachable cfg dial s) : ExitInv cfg s := by
  induction h with
  | start => exact exitInv_start cfg
  | step a hr hs ih => exact exitInv_step hr.inv ih hs

theorem heldAll_zero_of_idle (ws : List Worker) (h : ∀ w ∈ ws, w.idle = true) :
    heldAll ws = 0 := by
  induction ws with
  | nil => exact heldAll_nil
  | cons v ws ih =>
    rw [heldAll_cons, ih (fun w hw => h w (List.mem_cons_of_mem _ hw))]
    have := h v (List.mem_cons_self _ _)
    cases v <;> simp_all [Worker.held, Worker.idle]

/-- Progress: a state that satisfies the invariants, has at least one worker and in
which main has not returned has an enabled step. -/
theorem progress {cfg : Config} {dial : Int → Bool} {s : State} (hw : 1 ≤ cfg.workers)
    (hi : Inv cfg dial s) (he : ExitInv cfg s) (hpc : s.pc ≠ MainPc.returned) :
    ∃ a t, step cfg dial a s = some t := by
  have hph := hi.phase
  unfold PhaseInv at hph
  cases hp : s.pc <;> simp only [hp] at hph
  case spawn i =>
    refine ⟨Action.main, ?_⟩
    simp only [step, mainStep, hp]
    split <;> exact ⟨_, rfl⟩
  case goFeeder =>
    refine ⟨Action.main, ?_⟩
    simp only [step, mainStep, hp]
    exact ⟨_, rfl⟩
  case closePorts =>
    refine ⟨Action.main, ?_⟩
    simp only [step, mainStep, hp]
    split <;> exact ⟨_, rfl⟩
  case closeResults =>
    refine ⟨Action.main, ?_⟩
    simp only [step, mainStep, hp]
    split <;> exact ⟨_, rfl⟩
  case sorting =>
    refine ⟨Action.main, ?_⟩
    simp only [step, mainStep, hp]
    exact ⟨_, rfl⟩
  case print j =>
    refine ⟨Action.main, ?_⟩
    simp only [step, mainStep, hp]
    split <;> exact ⟨_, rfl⟩
  case returned => exact absurd hp hpc
  case gather i =>
    obtain ⟨h1, h2, h3, h4, h5, h6, h7, h8⟩ := hph
    by_cases hlt : i < cfg.count
    swap
    · refine ⟨Action.main, ?_⟩
      simp only [step, mainStep, hp, hlt, if_false]
      exact ⟨_, rfl⟩
    by_cases hall : ∀ w ∈ s.workers, w.idle = true
    · -- every worker is at its receive
      obtain ⟨w0, hw0⟩ : ∃ w0, s.workers[0]? = some w0 := by
        have : 0 < s.workers.length := by omega
        exact ⟨_, List.getElem?_eq_getElem this⟩
      have hmem : w0 ∈ s.workers := List.mem_iff_getElem?.mpr ⟨0, hw0⟩
      have hrecv : w0 = Worker.recv := by
        have hidle := hall w0 hmem
        cases w0 <;> simp_all [Worker.idle]
        have := he.worker_done hmem
        simp_all
      subst hrecv
      cases hb : s.buf with
      | cons p rest =>
        refine ⟨Action.worker 0, ?_⟩
        simp only [step, workerStep, hw0, hb]
        exact ⟨_, rfl⟩
      | nil =>
        have hcard := hi.card_eq
        rw [heldAll_zero_of_idle _ hall, hb] at hcard
        simp only [Multiset.card_zero, List.length_nil, Nat.add_zero] at hcard
        have hp1 := hi.next_pos
        have hnext : s.next ≤ cfg.count := by omega
        have hrun : s.feeder = Feeder.running := by
          have h9 := hi.feeder_ok
          cases hf : s.feeder
          · exact absurd hf h3
          · rfl
          · have := he.feeder_done hf
            omega
          · exact absurd hf h9
        refine ⟨Action.handoff 0, ?_⟩
        simp only [step, handoffStep, hrun, hw0, hb, hnext, h7, and_self, if_true]
        exact ⟨_, rfl⟩
    · -- some worker holds an item
      push_neg at hall
      obtain ⟨w1, hmem, hnot⟩ := hall
      obtain ⟨k, hk⟩ := List.mem_iff_getElem?.mp hmem
      have hok := hi.workers_ok w1 hmem
      cases w1 with
      | recv => simp [Worker.idle] at hnot
      | done => simp [Worker.idle] at hnot
      | panicked => exact absurd rfl hok
      | dial p =>
        refine ⟨Action.worker k, ?_⟩
        simp only [step, workerStep, hk]
        split <;> exact ⟨_, rfl⟩
      | send p v =>
        refine ⟨Action.deliver k, ?_⟩
        simp only [step, deliverStep, hp, hk, hlt, h8, and_self, if_true]
        exact ⟨_, rfl⟩

theorem workerBlocking_acc (dial : Int → DialResult) (items results : List Int)
    (h : ∀ q ∈ items, dial q ≠ DialResult.hangs) :
    workerBlocking dial items results
      = (results ++ items.map (fun q => if dial q = DialResult.connected then q else 0), true) := by
  induction items generalizing results with
  | nil => simp [workerBlocking]
  | cons p items ih =>
    have hp := h p (List.mem_cons_self _ _)
    have ih2 := fun r => ih r (fun q hq => h q (List.mem_cons_of_mem _ hq))
    cases hd : dial p <;> simp_all [workerBlocking]

/-- With a dial that always returns, the worker with a dial that may hang is the
worker `workerMultiChannel`: it returns, having published the same values. -/
theorem workerBlocking_of_returning (dial : Int → Bool) (items results : List Int) :
    workerBlocking (fun p => if dial p = true then DialResult.connected else DialResult.refused)
        items results
      = (workerMultiChannel dial items results, true) := by
  induction items generalizing results with
  | nil => simp [workerBlocking, workerMultiChannel]
  | cons p items ih =>
    by_cases hd : dial p = true <;> simp [workerBlocking, workerMultiChannel, hd, ih]

theorem workerBlocking_stuck (dial : Int → DialResult) (pre : List Int) (p : Int)
    (post results : List Int) (hpre : ∀ q ∈ pre, dial q ≠ DialResult.hangs)
    (hp : dial p = DialResult.hangs) :
    workerBlocking dial (pre ++ p :: post) results
      = (results ++ pre.map (fun q => if dial q = DialResult.connected then q else 0), false) := by
  induction pre generalizing results with
  | nil => simp [workerBlocking, hp]
  | cons q pre ih =>
    have hq := hpre q (List.mem_cons_self _ _)
    have ih2 := fun r => ih r (fun x hx => hpre x (List.mem_cons_of_mem _ hx))
    cases hd : dial q <;> simp_all [workerBlocking]

/-! ## The claims C11 to C14 and C16 -/

/-- C11. In every reachable state the items the feeder has published on `ports` are
`1, 2, ..., n` for some `n ≤ 1024`, in this order: ascending, each once, all in
1..1024.  Whenever `ports` is closed, and whenever the feeder has left its loop,
all of 1..1024 have been published: the channel is closed only after the last
item. -/
theorem feeder_publishes_in_order (dial : Int → Bool) (s : State)
    (h : Reachable scanConfig dial s) :
    (∃ n, n ≤ 1024 ∧ s.published = issued n) ∧
    s.published.Sorted (· < ·) ∧
    (∀ p ∈ s.published, 1 ≤ p ∧ p ≤ 1024) ∧
    (s.portsClosed = true → s.published = issued 1024 ∧
      ∀ p : Int, p ∈ s.published ↔ (1 ≤ p ∧ p ≤ 1024)) ∧
    (s.feeder = Feeder.done → s.published = issued 1024) := by
  have hi := h.inv
  have hl : s.next ≤ 1024 + 1 := hi.next_le
  have hpub := hi.published_eq
  refine ⟨⟨s.next - 1, by omega, hpub⟩, ?_, ?_, ?_, ?_⟩
  · rw [hpub]
    exact issued_sorted_lt _
  · intro p hp
    rw [hpub] at hp
    have := (mem_issued _ _).mp hp
    omega
  · intro hcl
    have hlen := hi.arrived_of_closed (Or.inl hcl)
    obtain ⟨-, -, h3, -, -⟩ := hi.complete hlen
    have h4 : s.published = issued 1024 := by
      rw [hpub, h3]
      rfl
    refine ⟨h4, fun p => ?_⟩
    rw [h4, mem_issued]
    simp
  · intro hd
    have := h.exitInv.feeder_done hd
    rw [hpub, this]
    rfl

/-- C11, at the moment `ports` has just been closed. -/
theorem feeder_publishes_in_order_witness :
    Reachable scanConfig dialMixed (closingState scanConfig dialMixed mixedItems) ∧
    (closingState scanConfig dialMixed mixedItems).portsClosed = true ∧
    (closingState scanConfig dialMixed mixedItems).published = issued 1024 :=
  ⟨reach_closing _ _ _ reach_mixed, rfl,
    ((feeder_publishes_in_order dialMixed _ (reach_closing _ _ _ reach_mixed)).2.2.2.1 rfl).1⟩

/-- C12. Back-pressure does not deadlock the scan: with any number `w ≥ 1` of workers and
any capacity `c` of the work channel (100 as in the source, or less, down to an
unbuffered channel), every reachable state in which fewer than 1024 results have
been received has an enabled step; more generally every reachable state in which
main has not returned has one. -/
theorem no_deadlock (w c : Nat) (hw : 1 ≤ w) (dial : Int → Bool) (s : State)
    (h : Reachable { workers := w, capacity := c, count := 1024 } dial s) :
    (s.arrived.length < 1024 →
      ∃ a t, step { workers := w, capacity := c, count := 1024 } dial a s = some t) ∧
    (s.pc ≠ MainPc.returned →
      ∃ a t, step { workers := w, capacity := c, count := 1024 } dial a s = some t) := by
  refine ⟨fun hlt => ?_, fun hpc => progress hw h.inv h.exitInv hpc⟩
  refine progress hw h.inv h.exitInv ?_
  intro hret
  have := h.inv.arrived_of_gathered (by simp [hret, MainPc.gathered])
  change s.arrived.length = 1024 at this
  omega

/-- C12, with a single worker and a work channel of capacity 1, after two results. -/
theorem no_deadlock_witness :
    Reachable { workers := 1, capacity := 1, count := 1024 } dialAll
      (roundState { workers := 1, capacity := 1, count := 1024 } dialAll
        ([] ++ itemsFrom 0 2) (0 + 2)) ∧
    ∃ a t, step { workers := 1, capacity := 1, count := 1024 } dialAll a
      (roundState { workers := 1, capacity := 1, count := 1024 } dialAll
        ([] ++ itemsFrom 0 2) (0 + 2)) = some t :=
  ⟨reach_rounds _ _ (by decide) _ _ (reach_round_zero _ _) 2 (by decide),
    (no_deadlock 1 1 (by decide) dialAll _
      (reach_rounds _ _ (by decide) _ _ (reach_round_zero _ _) 2 (by decide))).1 (by decide)⟩

/-- C13, refuted as stated: there is a run at whose return none of the hundred workers
has left its receive loop and the feeder has not left its loop either; worker 0,
for one, is still runnable (its next step observes the closed channel). -/
theorem goroutines_alive_at_return :
    Reachable scanConfig dialNone
      (returnedState scanConfig dialNone (inOrderItems scanConfig.count)) ∧
    (returnedState scanConfig dialNone (inOrderItems scanConfig.count)).pc
      = MainPc.returned ∧
    (returnedState scanConfig dialNone (inOrderItems scanConfig.count)).workers
      = List.replicate 100 Worker.recv ∧
    (returnedState scanConfig dialNone (inOrderItems scanConfig.count)).feeder
      = Feeder.running ∧
    (step scanConfig dialNone (Action.worker 0)
      (returnedState scanConfig dialNone (inOrderItems scanConfig.count))).isSome = true := by
  refine ⟨reach_returned _ _ _ (reach_inOrder _ _ (by decide)), rfl, rfl, rfl, ?_⟩
  simp [step, workerStep, returnedState, roundState, scanConfig, List.replicate_succ]

/-- C13, amended.  When `multiPortScanConcurrentlyUsingMultipleChannels` returns, `ports`
is closed and empty and no goroutine can block or publish any more: the feeder
has left its loop or has only the final test of its loop left, which ends it;
each worker has left its loop or is at its receive on the closed, empty channel,
where its only step is to leave the loop. -/
theorem goroutines_quiescent_at_return (dial : Int → Bool) (s : State)
    (h : Reachable scanConfig dial s) (hret : s.pc = MainPc.returned) :
    s.portsClosed = true ∧ s.buf = [] ∧
    (s.feeder = Feeder.done ∨
      (s.feeder = Feeder.running ∧
        feederStep scanConfig s = some { s with feeder := Feeder.done })) ∧
    (∀ k w, s.workers[k]? = some w →
      w = Worker.done ∨
      (w = Worker.recv ∧
        workerStep dial k s = some { s with workers := s.workers.set k Worker.done })) := by
  have hi := h.inv
  have hlen := hi.arrived_of_gathered (by simp [hret, MainPc.gathered])
  obtain ⟨h1, h2, h3, -, -⟩ := hi.complete hlen
  have hph := hi.phase
  simp only [PhaseInv, hret] at hph
  obtain ⟨-, hfs, -, -, -, hcl, -⟩ := hph
  refine ⟨hcl, h2, ?_, ?_⟩
  · have hfo := hi.feeder_ok
    cases hf : s.feeder
    · exact absurd hf hfs
    · right
      refine ⟨rfl, ?_⟩
      have hn : ¬ s.next ≤ scanConfig.count := by omega
      simp only [feederStep, hf, hn, if_false]
    · left; rfl
    · exact absurd hf hfo
  · intro k w hk
    have hmem : w ∈ s.workers := List.mem_iff_getElem?.mpr ⟨k, hk⟩
    have hidle := idle_of_heldAll_zero _ h1 hi.workers_ok w hmem
    cases w with
    | done => left; rfl
    | recv =>
      right
      refine ⟨rfl, ?_⟩
      simp only [workerStep, hk, h2, hcl, if_true]
    | dial p => simp [Worker.idle] at hidle
    | send p v => simp [Worker.idle] at hidle
    | panicked => simp [Worker.idle] at hidle

/-- C13 amended, at the end of a run. -/
theorem goroutines_quiescent_at_return_witness :
    Reachable scanConfig dialAll
      (returnedState scanConfig dialAll (swappedItems scanConfig.count)) ∧
    (returnedState scanConfig dialAll (swappedItems scanConfig.count)).buf = [] :=
  ⟨reach_returned _ _ _ (reach_swapped _ _ (by decide) (by decide)),
    (goroutines_quiescent_at_return dialAll _
      (reach_returned _ _ _ (reach_swapped _ _ (by decide) (by decide))) rfl).2.1⟩

/-- C14. The scan starts exactly 100 workers, all of them before the feeder exists: while
main is in the loop that starts them, `i` workers have been started, the feeder
has not been started and nothing has been published; from the end of that loop
on there are exactly 100 workers, in every state, so none is created per item. -/
theorem workers_spawned_up_front (dial : Int → Bool) (s : State)
    (h : Reachable scanConfig dial s) :
    s.workers.length ≤ 100 ∧
    (∀ i, s.pc = MainPc.spawn i →
      s.workers.length = i ∧ s.feeder = Feeder.notStarted ∧ s.published = []) ∧
    ((∀ i, s.pc ≠ MainPc.spawn i) → s.workers.length = 100) ∧
    (s.published ≠ [] → s.workers.length = 100) := by
  have hi := h.inv
  have hpub := hi.published_eq
  have hph := hi.phase
  unfold PhaseInv at hph
  cases hpc : s.pc <;> simp only [hpc] at hph
  case spawn i =>
    obtain ⟨h1, h2, h3, h4, -⟩ := hph
    have h5 : s.published = [] := by simp [hpub, h4, issued]
    change i ≤ 100 at h2
    refine ⟨by omega, ?_, ?_, ?_⟩
    · intro j hj
      simp only [MainPc.spawn.injEq] at hj
      subst hj
      exact ⟨h1, h3, h5⟩
    · intro hne
      exact absurd rfl (hne i)
    · intro hne
      exact absurd h5 hne
  all_goals
    have hlen : s.workers.length = 100 := by
      first
        | exact hph.1
        | exact hph.2.2.1
        | exact hph.2.2.2.1
    exact ⟨by omega, fun i hi => by simp at hi, fun _ => hlen, fun _ => hlen⟩

/-- C14, in the gathering loop after two results. -/
theorem workers_spawned_up_front_witness :
    Reachable scanConfig dialAll (roundState scanConfig dialAll ([] ++ itemsFrom 0 2) (0 + 2)) ∧
    (roundState scanConfig dialAll ([] ++ itemsFrom 0 2) (0 + 2)).workers.length = 100 :=
  ⟨reach_rounds _ _ (by decide) _ _ (reach_round_zero _ _) 2 (by decide),
    (workers_spawned_up_front dialAll _
      (reach_rounds _ _ (by decide) _ _ (reach_round_zero _ _) 2 (by decide))).2.2.1
        (by intro i hi; simp [roundState] at hi)⟩

/-- C16, refuted as stated: when the dial to port 2 never returns, the worker fed with
the items 1, 2, 3 publishes the result of item 1 only and never returns; no
timeout result is published for item 2 and item 3 is never probed. -/
theorem worker_hangs_with_dial :
    workerBlocking dialHangsAtTwo [1, 2, 3] [] = ([0], false) := by
  decide

/-- C16, amended.  `workerMultiChannel` has no timeout of its own: it waits for
`net.Dial` to return.  Fed with items whose dials all return, it publishes one
result per item and returns; at the first item whose dial never returns it has
published the results of the earlier items only and stays blocked for ever. -/
theorem worker_waits_for_dial (dial : Int → DialResult) (pre : List Int) (p : Int)
    (post : List Int) (hpre : ∀ q ∈ pre, dial q ≠ DialResult.hangs)
    (hp : dial p = DialResult.hangs) :
    workerBlocking dial pre []
      = (pre.map (fun q => if dial q = DialResult.connected then q else 0), true) ∧
    workerBlocking dial (pre ++ p :: post) []
      = (pre.map (fun q => if dial q = DialResult.connected then q else 0), false) := by
  have h1 := workerBlocking_acc dial pre [] hpre
  have h2 := workerBlocking_stuck dial pre p post [] hpre hp
  simp only [List.nil_append] at h1 h2
  exact ⟨h1, h2⟩

/-- C16 amended, for the items 1, 2, 3 with a dial to port 2 that never returns. -/
theorem worker_waits_for_dial_witness :
    workerBlocking dialHangsAtTwo [1] [] = ([0], true) ∧
    workerBlocking dialHangsAtTwo ([1] ++ 2 :: [3]) [] = ([0], false) :=
  worker_waits_for_dial dialHangsAtTwo [1] 2 [3] (by decide) (by decide)

end TcpScannerFinal

/-! ## Theorems about `ch2/tcp-scanner-wg-too-fast` -/

namespace TcpScannerWg

open TcpScannerFinal (issued issued_succ issued_length set_split mem_replace)

theorem liveAll_append (xs ys : List Probe) : liveAll (xs ++ ys) = liveAll xs + liveAll ys := by
  simp [liveAll]

theorem liveAll_cons (p : Probe) (ps : List Probe) : liveAll (p :: ps) = p.live + liveAll ps := by
  simp [liveAll]

theorem wg_inv_start (n : Nat) : Inv n State.start := by
  constructor <;> simp [State.start, MainPc.launched, MainPc.pending, liveAll, issued]

theorem wg_inv_main {n : Nat} {s t : State} (h : Inv n s) (hs : mainStep n s = some t) :
    Inv n t := by
  obtain ⟨hit, hc, hra, hrs, hnp, hrz⟩ := h
  unfold mainStep at hs
  cases hpc : s.pc <;> simp only [hpc] at hs
  case add i =>
    have hr := hra i hpc
    split at hs <;> rename_i hle <;> simp at hs <;> subst hs
    · refine ⟨?_, ?_, ?_, ?_, hnp, by simp⟩
      · simpa [MainPc.launched, hpc] using hit
      · simp only [hc, hpc, MainPc.pending]
        push_cast
        ring
      · intro j hj
        simp at hj
      · intro j hj
        simp only [MainPc.spawn.injEq] at hj
        subst hj
        exact ⟨hr.1, hle⟩
    · refine ⟨?_, ?_, ?_, ?_, hnp, by simp⟩
      · have : i - 1 = n := by omega
        simpa [MainPc.launched, hpc, this] using hit
      · simpa [hpc, MainPc.pending] using hc
      · intro j hj
        simp at hj
      · intro j hj
        simp at hj
  case spawn i =>
    have hr := hrs i hpc
    simp at hs; subst hs
    refine ⟨?_, ?_, ?_, ?_, ?_, by simp⟩
    · obtain ⟨m, hm⟩ : ∃ m, i = m + 1 := ⟨i - 1, by omega⟩
      subst hm
      simp only [MainPc.launched, hpc, Nat.add_sub_cancel] at hit ⊢
      simp only [List.map_append, hit, issued_succ, List.map_cons, List.map_nil, Probe.item]
    · simp [hc, hpc, MainPc.pending, liveAll, Probe.live]
    · intro j hj
      simp only [MainPc.add.injEq] at hj
      omega
    · intro j hj
      simp at hj
    · intro j hj
      rcases List.mem_append.mp hj with h1 | h1
      · exact hnp j h1
      · simp at h1
  case wait =>
    split at hs <;> rename_i hz <;> simp at hs
    subst hs
    refine ⟨?_, ?_, ?_, ?_, hnp, fun _ => hz⟩
    · simpa [MainPc.launched, hpc] using hit
    · simpa [hpc, MainPc.pending] using hc
    · intro j hj
      simp at hj
    · intro j hj
      simp at hj
  case returned => simp at hs

/-- Replacing the goroutine in one slot by one with the same argument and the same
liveness keeps the invariant. -/
theorem wg_inv_replace {n : Nat} {s : State} {pre post : List Probe} (x y : Probe)
    (h : Inv n s) (hws : s.probes = pre ++ x :: post) (hitem : y.item = x.item)
    (hlive : y.live = x.live) (hy : ∀ j, y ≠ Probe.panicked j) (printed : List Int) :
    Inv n { s with probes := pre ++ y :: post, printed := printed } := by
  obtain ⟨hit, hc, hra, hrs, hnp, hrz⟩ := h
  refine ⟨?_, ?_, hra, hrs, ?_, hrz⟩
  · simpa [hws, hitem] using hit
  · simpa [hws, liveAll_append, liveAll_cons, hlive] using hc
  · intro j hj
    rw [hws] at hnp
    rcases mem_replace x hj with h1 | h1
    · exact hy j h1.symm
    · exact hnp j h1

theorem wg_inv_probe {n : Nat} {dial : Int → Bool} {s t : State} {k : Nat} (h : Inv n s)
    (hs : probeStep dial k s = some t) : Inv n t := by
  unfold probeStep at hs
  split at hs
  · simp at hs
  · rename_i hnr
    split at hs
    · rename_i j hk
      obtain ⟨pre, post, hws, -, hset⟩ := set_split hk
      split at hs <;> simp at hs <;> subst hs <;> simp only [hset]
      · exact wg_inv_replace (Probe.dialing j) (Probe.finishing j) h hws rfl rfl (by simp) s.printed
      · exact wg_inv_replace (Probe.dialing j) (Probe.printing j) h hws rfl rfl (by simp) s.printed
    · rename_i j hk
      obtain ⟨pre, post, hws, -, hset⟩ := set_split hk
      simp at hs; subst hs
      simp only [hset]
      exact wg_inv_replace (Probe.printing j) (Probe.finishing j) h hws rfl rfl (by simp) _
    · rename_i j hk
      obtain ⟨pre, post, hws, -, hset⟩ := set_split hk
      obtain ⟨hit, hc, hra, hrs, hnp, hrz⟩ := h
      have hpos : 0 < s.counter := by
        rw [hc, hws]
        simp only [liveAll_append, liveAll_cons, Probe.live]
        omega
      split at hs
      · omega
      · simp at hs; subst hs
        simp only [hset]
        refine ⟨?_, ?_, hra, hrs, ?_, fun hr => absurd hr hnr⟩
        · simpa [hws, Probe.item] using hit
        · simp only [hc, hws, liveAll_append, liveAll_cons, Probe.live]
          push_cast
          ring
        · intro i hi
          rw [hws] at hnp
          rcases mem_replace (Probe.finishing j) hi with h1 | h1
          · simp at h1
          · exact hnp i h1
    · simp at hs

theorem wg_inv_step {n : Nat} {dial : Int → Bool} {s t : State} {a : Action} (h : Inv n s)
    (hs : step n dial a s = some t) : Inv n t := by
  cases a
  · exact wg_inv_main h hs
  · exact wg_inv_probe h hs

theorem Reachable.wg_inv {n : Nat} {dial : Int → Bool} {s : State} (h : Reachable n dial s) :
    Inv n s := by
  induction h with
  | start => exact wg_inv_start n
  | step a _ hs ih => exact wg_inv_step ih hs

/-- Goroutines none of which is live or has panicked have all terminated. -/
theorem all_done_of_liveAll_zero (ps : List Probe) (h0 : liveAll ps = 0)
    (hnp : ∀ j, Probe.panicked j ∉ ps) : ∀ p ∈ ps, p = Probe.done p.item := by
  induction ps with
  | nil => simp
  | cons q ps ih =>
    rw [liveAll_cons] at h0
    intro p hp
    rcases List.mem_cons.mp hp with rfl | hmem
    · have := hnp p.item
      cases p <;> simp_all [Probe.live, Probe.item]
    · exact ih (by omega) (fun j hj => hnp j (List.mem_cons_of_mem _ hj)) p hmem

theorem getElem?_snoc {α : Type} (l : List α) (a : α) (k : Nat) (hk : l.length = k) :
    (l ++ [a])[k]? = some a := by
  subst hk
  simp

theorem set_snoc {α : Type} (l : List α) (a b : α) (k : Nat) (hk : l.length = k) :
    (l ++ [a]).set k b = l ++ [b] := by
  subst hk
  induction l with
  | nil => rfl
  | cons x l ih => simp [ih]

theorem wg_reach_done (n : Nat) (dial : Int → Bool) (i : Nat) (hi : i ≤ n) :
    Reachable n dial (doneState dial i) := by
  induction i with
  | zero => exact Reachable.start
  | succ i ih =>
    have hlen : ((issued i).map Probe.done).length = i := by simp [issued_length]
    have h1 : Reachable n dial
        { doneState dial i with counter := 1, pc := MainPc.spawn (i + 1) } := by
      refine Reachable.step Action.main (ih (by omega)) ?_
      have : i + 1 ≤ n := hi
      simp [step, mainStep, doneState, this]
    have h2 : Reachable n dial { doneState dial i with
        counter := 1, pc := MainPc.add (i + 2),
        probes := (issued i).map Probe.done ++ [Probe.dialing ((i : Int) + 1)] } := by
      refine Reachable.step Action.main h1 ?_
      simp [step, mainStep, doneState]
    have h4 : Reachable n dial { doneState dial i with
        counter := 1, pc := MainPc.add (i + 2),
        probes := (issued i).map Probe.done ++ [Probe.finishing ((i : Int) + 1)],
        printed := (issued (i + 1)).filter (fun p => dial p) } := by
      by_cases hd : dial ((i : Int) + 1) = true
      · have h3 : Reachable n dial { doneState dial i with
            counter := 1, pc := MainPc.add (i + 2),
            probes := (issued i).map Probe.done ++ [Probe.printing ((i : Int) + 1)] } := by
          refine Reachable.step (Action.probe i) h2 ?_
          simp only [step, probeStep, getElem?_snoc _ _ _ hlen, set_snoc _ _ _ _ hlen]
          simp [hd]
        refine Reachable.step (Action.probe i) h3 ?_
        simp only [step, probeStep, getElem?_snoc _ _ _ hlen, set_snoc _ _ _ _ hlen]
        simp [doneState, issued_succ, List.filter_append, hd]
      · refine Reachable.step (Action.probe i) h2 ?_
        simp only [step, probeStep, getElem?_snoc _ _ _ hlen, set_snoc _ _ _ _ hlen]
        simp [doneState, issued_succ, List.filter_append, hd]
    refine Reachable.step (Action.probe i) h4 ?_
    simp only [step, probeStep, getElem?_snoc _ _ _ hlen, set_snoc _ _ _ _ hlen]
    simp [doneState, issued_succ]

theorem wg_reach_returned (n : Nat) (dial : Int → Bool) :
    Reachable n dial (returnedState dial n) := by
  have h1 : Reachable n dial { doneState dial n with pc := MainPc.wait } := by
    refine Reachable.step Action.main (wg_reach_done n dial n (le_refl _)) ?_
    simp [step, mainStep, doneState]
  refine Reachable.step Action.main h1 ?_
  simp [step, mainStep, doneState, returnedState]

/-- C18. In the WaitGroup scanner, in every reachable state: the goroutines started are
those of the ports `1, 2, ...` in order, one each; the counter is never negative
and equals the number of goroutines whose `wg.Done()` has not yet run, plus one
between a `wg.Add(1)` and the `go` statement that follows it; a goroutine that
has reached the end of its body (after a failed dial or after printing) can
always run its deferred `wg.Done()`, which lowers the counter by exactly one and
never panics; and once `wg.Wait()` has returned the counter is zero and the
goroutines of all the ports 1..1024 have terminated. -/
theorem wg_counter_tracks_probes (dial : Int → Bool) (s : State)
    (h : Reachable 1024 dial s) :
    0 ≤ s.counter ∧
    s.counter = ((liveAll s.probes + s.pc.pending : Nat) : Int) ∧
    s.probes.map Probe.item = issued (s.pc.launched 1024) ∧
    (∀ j, Probe.panicked j ∉ s.probes) ∧
    (∀ k j, s.probes[k]? = some (Probe.finishing j) →
      probeStep dial k s
        = some { s with counter := s.counter - 1, probes := s.probes.set k (Probe.done j) }) ∧
    (s.pc = MainPc.returned → s.counter = 0 ∧ s.probes = (issued 1024).map Probe.done) := by
  have hi := h.wg_inv
  have hc := hi.counter_eq
  refine ⟨by omega, hc, hi.items, hi.no_panic, ?_, ?_⟩
  · intro k j hk
    obtain ⟨pre, post, hws, -, -⟩ := set_split hk
    have hlive : 0 < liveAll s.probes := by
      rw [hws]
      simp only [liveAll_append, liveAll_cons, Probe.live]
      omega
    have hnr : s.pc ≠ MainPc.returned := by
      intro hr
      have := hi.returned_zero hr
      omega
    have hpos : ¬ s.counter ≤ 0 := by omega
    simp only [probeStep, hnr, if_false, hk, hpos]
  · intro hr
    have hz := hi.returned_zero hr
    refine ⟨hz, ?_⟩
    have hl0 : liveAll s.probes = 0 := by omega
    have hall := all_done_of_liveAll_zero _ hl0 hi.no_panic
    have hit := hi.items
    simp only [hr, MainPc.launched] at hit
    rw [← hit, List.map_map]
    conv_lhs => rw [← List.map_id s.probes]
    exact List.map_congr_left (fun p hp => by simpa using hall p hp)

/-- C18, at the end of a run with open ports. -/
theorem wg_counter_tracks_probes_witness :
    Reachable 1024 TcpScannerFinal.dialMixed (returnedState TcpScannerFinal.dialMixed 1024) ∧
    (returnedState TcpScannerFinal.dialMixed 1024).counter = 0 :=
  ⟨wg_reach_returned _ _,
    ((wg_counter_tracks_probes _ _ (wg_reach_returned _ _)).2.2.2.2.2 rfl).1⟩

end TcpScannerWg

/-! ## Theorems about `ch2/tcp-sync-scanner` -/

namespace TcpSyncScanner

open TcpScannerFinal (issued issued_succ issued_length set_split mem_replace)

theorem sync_heldAll_cons (w : Worker) (ws : List Worker) :
    heldAll (w :: ws) = w.held + heldAll ws := by
  simp [heldAll]

theorem sync_heldAll_append (xs ys : List Worker) :
    heldAll (xs ++ ys) = heldAll xs + heldAll ys := by
  simp [heldAll]

theorem shownAll_cons (w : Worker) (ws : List Worker) :
    shownAll (w :: ws) = w.shown + shownAll ws := by
  simp [shownAll]

theorem shownAll_append (xs ys : List Worker) :
    shownAll (xs ++ ys) = shownAll xs + shownAll ys := by
  simp [shownAll]

theorem sendCount_le_addCount (cfg : Config) (pc : MainPc) :
    pc.sendCount cfg ≤ pc.addCount cfg := by
  cases pc <;> simp [MainPc.sendCount, MainPc.addCount]

theorem sync_inv_start (cfg : Config) : Inv cfg State.start := by
  constructor <;>
    simp [State.start, MainPc.addCount, MainPc.sendCount, MainPc.waited, heldAll, shownAll, issued]

/-- Counting form of conservation. -/
theorem Inv.sync_card {cfg : Config} {s : State} (h : Inv cfg s) :
    s.completed.length + Multiset.card (heldAll s.workers) + s.buf.length = s.sent.length := by
  have := congrArg Multiset.card h.conserve
  simpa using this

theorem sync_inv_main {cfg : Config} {s t : State} (h : Inv cfg s)
    (hs : mainStep cfg s = some t) : Inv cfg t := by
  obtain ⟨hc, had, hse, hcon, hsh, hra, hrs, hwz, hcl, hnp⟩ := h
  unfold mainStep at hs
  cases hpc : s.pc <;> simp only [hpc] at hs
  case spawn i =>
    have hncl : s.portsClosed = true → False := fun h0 => by
      have := hcl h0
      simp [hpc] at this
    split at hs <;> simp at hs <;> subst hs
    · refine ⟨hc, ?_, ?_, ?_, ?_, ?_, ?_, ?_, ?_, ?_⟩
      · simpa [hpc, MainPc.addCount] using had
      · simpa [hpc, MainPc.sendCount] using hse
      · simpa [sync_heldAll_append, sync_heldAll_cons, heldAll, Worker.held] using hcon
      · simpa [shownAll_append, shownAll_cons, shownAll, Worker.shown] using hsh
      · intro j hj; simp at hj
      · intro j hj; simp at hj
      · simp [MainPc.waited]
      · intro h0; exact (hncl h0).elim
      · intro hm
        rcases List.mem_append.mp hm with h1 | h1
        · exact hnp h1
        · simp at h1
    · refine ⟨hc, ?_, ?_, hcon, hsh, ?_, ?_, ?_, ?_, hnp⟩
      · simpa [hpc, MainPc.addCount] using had
      · simpa [hpc, MainPc.sendCount] using hse
      · intro j hj
        simp only [MainPc.add.injEq] at hj
        omega
      · intro j hj; simp at hj
      · simp [MainPc.waited]
      · intro h0; exact (hncl h0).elim
  case add i =>
    have hr := hra i hpc
    have hncl : s.portsClosed = true → False := fun h0 => by
      have := hcl h0
      simp [hpc] at this
    split at hs <;> rename_i hle <;> simp at hs <;> subst hs
    · obtain ⟨m, hm⟩ : ∃ m, i = m + 1 := ⟨i - 1, by omega⟩
      subst hm
      simp only [hpc, MainPc.addCount, MainPc.sendCount, Nat.add_sub_cancel] at had hse
      refine ⟨?_, ?_, ?_, hcon, hsh, ?_, ?_, ?_, ?_, hnp⟩
      · simp only [hc, List.length_append, List.length_singleton]
        push_cast
        ring
      · simp only [MainPc.addCount, had, issued_succ]
      · simpa [MainPc.sendCount] using hse
      · intro j hj; simp at hj
      · intro j hj
        simp only [MainPc.send.injEq] at hj
        omega
      · simp [MainPc.waited]
      · intro h0; exact (hncl h0).elim
    · have hi : i - 1 = cfg.count := by omega
      refine ⟨hc, ?_, ?_, hcon, hsh, ?_, ?_, ?_, ?_, hnp⟩
      · simpa [hpc, MainPc.addCount, hi] using had
      · simpa [hpc, MainPc.sendCount, hi] using hse
      · intro j hj; simp at hj
      · intro j hj; simp at hj
      · simp [MainPc.waited]
      · intro h0; exact (hncl h0).elim
  case send i =>
    have hr := hrs i hpc
    have hncl : s.portsClosed = true → False := fun h0 => by
      have := hcl h0
      simp [hpc] at this
    split at hs <;> simp at hs
    subst hs
    obtain ⟨m, hm⟩ : ∃ m, i = m + 1 := ⟨i - 1, by omega⟩
    subst hm
    simp only [hpc, MainPc.addCount, MainPc.sendCount, Nat.add_sub_cancel] at had hse
    refine ⟨hc, ?_, ?_, ?_, hsh, ?_, ?_, ?_, ?_, hnp⟩
    · simpa [MainPc.addCount] using had
    · simp only [MainPc.sendCount, Nat.add_sub_cancel, hse, issued_succ]
    · simp only [← Multiset.coe_add, ← hcon]
      abel
    · intro j hj
      simp only [MainPc.add.injEq] at hj
      omega
    · intro j hj; simp at hj
    · simp [MainPc.waited]
    · intro h0; exact (hncl h0).elim
  case wait =>
    have hncl : s.portsClosed = true → False := fun h0 => by
      have := hcl h0
      simp [hpc] at this
    split at hs <;> rename_i hz <;> simp at hs
    subst hs
    refine ⟨hc, ?_, ?_, hcon, hsh, ?_, ?_, fun _ => hz, ?_, hnp⟩
    · simpa [hpc, MainPc.addCount] using had
    · simpa [hpc, MainPc.sendCount] using hse
    · intro j hj; simp at hj
    · intro j hj; simp at hj
    · intro h0; exact (hncl h0).elim
  case closePorts =>
    simp at hs; subst hs
    refine ⟨hc, ?_, ?_, hcon, hsh, ?_, ?_, ?_, fun _ => rfl, hnp⟩
    · simpa [hpc, MainPc.addCount] using had
    · simpa [hpc, MainPc.sendCount] using hse
    · intro j hj; simp at hj
    · intro j hj; simp at hj
    · intro _
      exact hwz (by simp [hpc, MainPc.waited])
  case returned => simp at hs

theorem sync_no_panic_replace {pre post : List Worker} (x : Worker) {y : Worker}
    (hnp : Worker.panicked ∉ pre ++ x :: post) (hy : y ≠ Worker.panicked) :
    Worker.panicked ∉ pre ++ y :: post := by
  intro hm
  rcases mem_replace x hm with h1 | h1
  · exact hy h1.symm
  · exact hnp h1

theorem sync_inv_handoff {cfg : Config} {s t : State} {k : Nat} (h : Inv cfg s)
    (hs : handoffStep k s = some t) : Inv cfg t := by
  obtain ⟨hc, had, hse, hcon, hsh, hra, hrs, hwz, hcl, hnp⟩ := h
  unfold handoffStep at hs
  split at hs
  · rename_i i hpc hk hbuf
    obtain ⟨pre, post, hws, -, hset⟩ := set_split hk
    have hr := hrs i hpc
    have hncl : s.portsClosed = true → False := fun h0 => by
      have := hcl h0
      simp [hpc] at this
    simp at hs; subst hs
    obtain ⟨m, hm⟩ : ∃ m, i = m + 1 := ⟨i - 1, by omega⟩
    subst hm
    simp only [hpc, MainPc.addCount, MainPc.sendCount, Nat.add_sub_cancel] at had hse
    rw [hws] at hnp
    refine ⟨hc, ?_, ?_, ?_, ?_, ?_, ?_, ?_, ?_, ?_⟩
    · simpa [MainPc.addCount] using had
    · simp only [MainPc.sendCount, Nat.add_sub_cancel, hse, issued_succ]
    · simp only [hset, hbuf] at hcon ⊢
      rw [← Multiset.coe_add, ← hcon, hws]
      simp only [sync_heldAll_append, sync_heldAll_cons, Worker.held]
      simp only [← Multiset.coe_singleton, Multiset.coe_nil]
      abel
    · simp only [hset]
      rw [hsh, hws]
      simp only [shownAll_append, shownAll_cons, Worker.shown]
    · intro j hj
      simp only [MainPc.add.injEq] at hj
      omega
    · intro j hj; simp at hj
    · simp [MainPc.waited]
    · intro h0; exact (hncl h0).elim
    · simp only [hset]
      exact sync_no_panic_replace _ hnp (by simp)
  · simp at hs

theorem sync_inv_worker {cfg : Config} {s t : State} {k : Nat} (h : Inv cfg s)
    (hs : workerStep k s = some t) : Inv cfg t := by
  have hcard := h.sync_card
  obtain ⟨hc, had, hse, hcon, hsh, hra, hrs, hwz, hcl, hnp⟩ := h
  unfold workerStep at hs
  split at hs
  · rename_i hk
    obtain ⟨pre, post, hws, -, hset⟩ := set_split hk
    rw [hws] at hnp
    split at hs
    · rename_i p rest hbuf
      simp at hs; subst hs
      refine ⟨hc, had, hse, ?_, ?_, hra, hrs, hwz, hcl, ?_⟩
      · simp only [hset, hbuf] at hcon ⊢
        rw [← hcon, hws]
        simp only [sync_heldAll_append, sync_heldAll_cons, Worker.held,
          ← Multiset.cons_coe, ← Multiset.singleton_add]
        abel
      · simp only [hset]
        rw [hsh, hws]
        simp only [shownAll_append, shownAll_cons, Worker.shown]
      · simp only [hset]
        exact sync_no_panic_replace _ hnp (by simp)
    · split at hs
      · simp at hs; subst hs
        refine ⟨hc, had, hse, ?_, ?_, hra, hrs, hwz, hcl, ?_⟩
        · simp only [hset]
          rw [← hcon, hws]
          simp only [sync_heldAll_append, sync_heldAll_cons, Worker.held]
        · simp only [hset]
          rw [hsh, hws]
          simp only [shownAll_append, shownAll_cons, Worker.shown]
        · simp only [hset]
          exact sync_no_panic_replace _ hnp (by simp)
      · simp at hs
  · rename_i p hk
    obtain ⟨pre, post, hws, -, hset⟩ := set_split hk
    rw [hws] at hnp
    simp at hs; subst hs
    refine ⟨hc, had, hse, ?_, ?_, hra, hrs, hwz, hcl, ?_⟩
    · simp only [hset]
      rw [← hcon, hws]
      simp only [sync_heldAll_append, sync_heldAll_cons, Worker.held]
    · simp only [hset, ← Multiset.coe_add, hsh]
      rw [hws]
      simp only [shownAll_append, shownAll_cons, Worker.shown, ← Multiset.coe_singleton]
      abel
    · simp only [hset]
      exact sync_no_panic_replace _ hnp (by simp)
  · rename_i p hk
    obtain ⟨pre, post, hws, -, hset⟩ := set_split hk
    have hpos : 0 < s.counter := by
      have h1 : 0 < Multiset.card (heldAll s.workers) := by
        rw [hws]
        simp [sync_heldAll_append, sync_heldAll_cons, Worker.held]
      have h2 := sendCount_le_addCount cfg s.pc
      have h3 : s.added.length = s.pc.addCount cfg := by rw [had, issued_length]
      have h4 : s.sent.length = s.pc.sendCount cfg := by rw [hse, issued_length]
      omega
    have hnw : s.pc.waited = false := by
      cases hw : s.pc.waited
      · rfl
      · have := hwz hw
        omega
    rw [hws] at hnp
    split at hs
    · omega
    · simp at hs; subst hs
      refine ⟨?_, had, hse, ?_, ?_, hra, hrs, ?_, hcl, ?_⟩
      · simp only [hc, List.length_append, List.length_singleton]
        push_cast
        ring
      · simp only [hset, ← Multiset.coe_add]
        rw [← hcon, hws]
        simp only [sync_heldAll_append, sync_heldAll_cons, Worker.held, ← Multiset.coe_singleton]
        abel
      · simp only [hset, ← Multiset.coe_add, hsh]
        rw [hws]
        simp only [shownAll_append, shownAll_cons, Worker.shown, ← Multiset.coe_singleton]
        abel
      · intro hw
        simp [hnw] at hw
      · simp only [hset]
        exact sync_no_panic_replace _ hnp (by simp)
  · simp at hs

theorem sync_inv_step {cfg : Config} {s t : State} {a : Action} (h : Inv cfg s)
    (hs : step cfg a s = some t) : Inv cfg t := by
  cases a
  · exact sync_inv_main h hs
  · exact sync_inv_handoff h hs
  · exact sync_inv_worker h hs

theorem Reachable.sync_inv {cfg : Config} {s : State} (h : Reachable cfg s) : Inv cfg s := by
  induction h with
  | start => exact sync_inv_start cfg
  | step a _ hs ih => exact sync_inv_step ih hs

theorem sync_reach_spawn (cfg : Config) (i : Nat) (hi : i ≤ cfg.workers) :
    Reachable cfg (spawnState i) := by
  induction i with
  | zero => exact Reachable.start
  | succ n ih =>
    refine Reachable.step Action.main (ih (by omega)) ?_
    have hn : n < cfg.workers := by omega
    simp [step, mainStep, spawnState, hn, List.replicate_succ']

theorem sync_reach_round (cfg : Config) (hw : 1 ≤ cfg.workers) (i : Nat) (hi : i ≤ cfg.count) :
    Reachable cfg (roundState cfg i) := by
  induction i with
  | zero =>
    refine Reachable.step Action.main (sync_reach_spawn cfg cfg.workers (le_refl _)) ?_
    simp [step, mainStep, spawnState, roundState, State.start, issued]
  | succ i ih =>
    obtain ⟨m, hm⟩ : ∃ m, cfg.workers = m + 1 := ⟨cfg.workers - 1, by omega⟩
    have h1 : Reachable cfg { roundState cfg i with
        counter := 1, added := issued (i + 1), pc := MainPc.send (i + 1) } := by
      refine Reachable.step Action.main (ih (by omega)) ?_
      have : i + 1 ≤ cfg.count := hi
      simp [step, mainStep, roundState, this, issued_succ]
    have h2 : Reachable cfg { roundState cfg i with
        counter := 1, added := issued (i + 1), sent := issued (i + 1),
        workers := Worker.printing ((i : Int) + 1) :: List.replicate m Worker.recv,
        pc := MainPc.add (i + 2) } := by
      refine Reachable.step (Action.handoff 0) h1 ?_
      simp [step, handoffStep, roundState, hm, List.replicate_succ, issued_succ]
    have h3 : Reachable cfg { roundState cfg i with
        counter := 1, added := issued (i + 1), sent := issued (i + 1),
        printed := issued (i + 1),
        workers := Worker.finishing ((i : Int) + 1) :: List.replicate m Worker.recv,
        pc := MainPc.add (i + 2) } := by
      refine Reachable.step (Action.worker 0) h2 ?_
      simp [step, workerStep, roundState, issued_succ]
    refine Reachable.step (Action.worker 0) h3 ?_
    simp [step, workerStep, roundState, issued_succ, hm, List.replicate_succ]

theorem sync_reach_returned (cfg : Config) (hw : 1 ≤ cfg.workers) :
    Reachable cfg (returnedState cfg) := by
  have h1 : Reachable cfg { roundState cfg cfg.count with pc := MainPc.wait } := by
    refine Reachable.step Action.main (sync_reach_round cfg hw cfg.count (le_refl _)) ?_
    simp [step, mainStep, roundState]
  have h2 : Reachable cfg { roundState cfg cfg.count with pc := MainPc.closePorts } := by
    refine Reachable.step Action.main h1 ?_
    simp [step, mainStep, roundState]
  refine Reachable.step Action.main h2 ?_
  simp [step, mainStep, roundState, returnedState]

/-- Workers that hold nothing and have not panicked are at their receive or have returned. -/
theorem sync_idle_of_heldAll_zero (ws : List Worker) (h0 : heldAll ws = 0)
    (hok : Worker.panicked ∉ ws) : ∀ w ∈ ws, w.idle = true := by
  induction ws with
  | nil => simp
  | cons v ws ih =>
    rw [sync_heldAll_cons] at h0
    have h1 : v.held = 0 := by
      have := congrArg Multiset.card h0
      simp only [Multiset.card_add, Multiset.card_zero] at this
      exact Multiset.card_eq_zero.mp (by omega)
    have h2 : heldAll ws = 0 := by simpa [h1] using h0
    intro w hw
    rcases List.mem_cons.mp hw with rfl | hmem
    · have : w ≠ Worker.panicked := fun hp => hok (hp ▸ List.mem_cons_self _ _)
      cases w <;> simp_all [Worker.held, Worker.idle]
    · exact ih h2 (fun hu => hok (List.mem_cons_of_mem _ hu)) w hmem

theorem shownAll_zero_of_idle (ws : List Worker) (h : ∀ w ∈ ws, w.idle = true) :
    shownAll ws = 0 := by
  induction ws with
  | nil => simp [shownAll]
  | cons v ws ih =>
    rw [shownAll_cons, ih (fun w hw => h w (List.mem_cons_of_mem _ hw))]
    have := h v (List.mem_cons_self _ _)
    cases v <;> simp_all [Worker.shown, Worker.idle]

/-- C19. In the worker-pool scanner, in every reachable state the WaitGroup counter is the
number of items announced by `wg.Add(1)` minus the number of items reported by
`wg.Done()`, and it is never negative; the items announced are `1, ..., a` with
`a ≤ 1024`, and at most one of them (the one main is about to send) has not been
sent yet.  Once `wg.Wait()` has returned, and hence whenever `ports` is closed,
all the items 1..1024 have been printed and reported done, each once, and no
worker holds an item. -/
theorem sync_counter_tracks_items (s : State) (h : Reachable scanConfig s) :
    s.counter = (s.added.length : Int) - (s.completed.length : Int) ∧
    0 ≤ s.counter ∧
    (∃ a, a ≤ 1024 ∧ s.added = issued a) ∧
    (s.sent.length ≤ s.added.length ∧ s.added.length ≤ s.sent.length + 1) ∧
    ((s.pc.waited = true ∨ s.portsClosed = true) →
      s.completed.Perm (issued 1024) ∧ s.printed.Perm (issued 1024) ∧
      ∀ w ∈ s.workers, w.idle = true) := by
  have hi := h.sync_inv
  have hcard := hi.sync_card
  have hc := hi.counter_eq
  have h3 : s.added.length = s.pc.addCount scanConfig := by rw [hi.added_eq, issued_length]
  have h4 : s.sent.length = s.pc.sendCount scanConfig := by rw [hi.sent_eq, issued_length]
  have h2 := sendCount_le_addCount scanConfig s.pc
  refine ⟨hc, by omega, ⟨s.pc.addCount scanConfig, ?_, hi.added_eq⟩, ⟨by omega, ?_⟩, ?_⟩
  · have hra := hi.range_add
    have hrs := hi.range_send
    cases hpc : s.pc <;> simp only [MainPc.addCount, scanConfig]
    · omega
    · have := hra _ hpc
      simp only [scanConfig] at this
      omega
    · have := hrs _ hpc
      simp only [scanConfig] at this
      omega
    all_goals omega
  · rw [h3, h4]
    cases s.pc <;> simp only [MainPc.addCount, MainPc.sendCount] <;> omega
  · intro hw
    have hwt : s.pc.waited = true := by
      rcases hw with hw | hw
      · exact hw
      · rw [hi.closed_iff hw]
        rfl
    have hz := hi.waited_zero hwt
    have hcnt : s.pc.addCount scanConfig = 1024 ∧ s.pc.sendCount scanConfig = 1024 := by
      cases hpc : s.pc <;> simp [hpc, MainPc.waited] at hwt <;>
        simp [MainPc.addCount, MainPc.sendCount, scanConfig]
    have hh : heldAll s.workers = 0 := Multiset.card_eq_zero.mp (by omega)
    have hb : s.buf = [] := List.length_eq_zero.mp (by omega)
    have hidle := sync_idle_of_heldAll_zero _ hh hi.no_panic
    have hcon := hi.conserve
    rw [hh, hb, hi.sent_eq, hcnt.2] at hcon
    simp only [add_zero, Multiset.coe_nil] at hcon
    have hperm : s.completed.Perm (issued 1024) := Multiset.coe_eq_coe.mp hcon
    have hsh := hi.shown_eq
    rw [shownAll_zero_of_idle _ hidle, add_zero] at hsh
    exact ⟨hperm, (Multiset.coe_eq_coe.mp hsh).trans hperm, hidle⟩

/-- C19, at the end of a run. -/
theorem sync_counter_tracks_items_witness :
    Reachable scanConfig (returnedState scanConfig) ∧ (returnedState scanConfig).counter = 0 ∧
    (returnedState scanConfig).completed.Perm (issued 1024) :=
  ⟨sync_reach_returned _ (by decide), rfl,
    ((sync_counter_tracks_items _ (sync_reach_returned _ (by decide))).2.2.2.2
      (Or.inr rfl)).1⟩

end TcpSyncScanner

/-! ## Theorems about `ch2/tcp-scanner-too-fast` -/

namespace TcpScannerTooFast

open TcpScannerFinal (issued issued_succ issued_length)

theorem tooFast_reach_launched (n : Nat) (dial : Int → Bool) (i : Nat) (hi : i ≤ n) :
    Reachable n dial (launchedState i) := by
  induction i with
  | zero => exact Reachable.start
  | succ i ih =>
    refine Reachable.step Action.main (ih (by omega)) ?_
    have : i + 1 ≤ n := hi
    simp [step, mainStep, launchedState, this, issued_succ]

theorem tooFast_reach_abandoned (n : Nat) (dial : Int → Bool) :
    Reachable n dial (abandonedState n) := by
  refine Reachable.step Action.main (tooFast_reach_launched n dial n (le_refl _)) ?_
  simp [step, mainStep, launchedState, abandonedState]

/-- C20. The naive scanner can return before its concurrent work finishes: whatever the
dial outcome, also when every dial would succeed, there is a run in which main
starts the goroutines of the ports 1..1024 and returns while none of them has
dialed yet; nothing has been printed, and nothing more can happen, because the
process ends when `main` returns. -/
theorem too_fast_returns_early (dial : Int → Bool) :
    Reachable 1024 dial (abandonedState 1024) ∧
    (abandonedState 1024).pc = MainPc.returned ∧
    (abandonedState 1024).probes = (issued 1024).map Probe.dialing ∧
    (abandonedState 1024).probes.length = 1024 ∧
    (abandonedState 1024).printed = [] ∧
    ∀ a, step 1024 dial a (abandonedState 1024) = none := by
  refine ⟨tooFast_reach_abandoned 1024 dial, rfl, rfl, ?_, rfl, ?_⟩
  · simp [abandonedState, launchedState, issued_length]
  · intro a
    cases a <;> simp [step, mainStep, probeStep, abandonedState]

end TcpScannerTooFast

/-! ## Theorems about `ch2/tcp-scanner-slow` -/

namespace TcpScannerSlow

open TcpScannerFinal (issued)

theorem scanLoop_eq (dial : Int → Bool) (n fuel i : Nat) (printed : List Int)
    (hi : i ≤ n + 1) (hf : n + 1 - i < fuel) :
    scanLoop dial n fuel i printed
      = some (printed ++ ((List.range' i (n + 1 - i)).map (fun j : Nat => (j : Int))).filter
          (fun p => dial p)) := by
  induction fuel generalizing i printed with
  | zero => omega
  | succ fuel ih =>
    by_cases hle : i ≤ n
    · obtain ⟨k, hk⟩ : ∃ k, n + 1 - i = k + 1 := ⟨n - i, by omega⟩
      have hk2 : n + 1 - (i + 1) = k := by omega
      by_cases hd : dial (i : Int) = true
      · simp only [scanLoop, hle, if_true, hd, Bool.true_eq_false, if_false]
        rw [ih (i + 1) _ (by omega) (by omega), hk, hk2, List.range'_succ]
        simp [hd]
      · simp only [scanLoop, hle, if_true, hd, if_true]
        rw [ih (i + 1) _ (by omega) (by omega), hk, hk2, List.range'_succ]
        simp [hd]
    · have h0 : n + 1 - i = 0 := by omega
      simp [scanLoop, hle, h0]

/-- The sequential scanner returns, having printed the ports of `1..n` whose dial
succeeds, in ascending order. -/
theorem scan_eq (dial : Int → Bool) (n : Nat) :
    scan dial n = some ((issued n).filter (fun p => dial p)) := by
  unfold scan
  rw [scanLoop_eq dial n (n + 1) 1 [] (by omega) (by omega)]
  simp [issued]

end TcpScannerSlow

/-! ## The concurrent scanner against the sequential one; the range of the report -/

namespace TcpScannerFinal

theorem issued_nodup (n : Nat) : (issued n).Nodup :=
  (issued_sorted_lt n).imp (fun h => ne_of_lt h)

/-- The items whose results main has received are distinct. -/
theorem Inv.served_nodup {cfg : Config} {dial : Int → Bool} {s : State}
    (h : Inv cfg dial s) : s.served.Nodup := by
  have hle : (s.served : Multiset Int) ≤ (issued (s.next - 1) : Multiset Int) := by
    rw [← h.published_eq, ← h.conserve, add_assoc]
    exact Multiset.le_add_right _ _
  have := Multiset.nodup_of_le hle (Multiset.coe_nodup.mpr (issued_nodup _))
  exact Multiset.coe_nodup.mp this

/-- What main has collected are the received items whose dial succeeded. -/
theorem Inv.openPorts_perm_served {cfg : Config} {dial : Int → Bool} {s : State}
    (h : Inv cfg dial s) : s.openPorts.Perm (s.served.filter (fun p => dial p)) := by
  have h1 := h.openPorts_perm.1
  rw [h.values, filter_probe dial s.served] at h1
  · exact h1
  · intro p hp
    have := (mem_issued _ _).mp (h.served_mem p hp)
    omega

theorem Inv.printed_mem {cfg : Config} {dial : Int → Bool} {s : State}
    (h : Inv cfg dial s) (p : Int) (hp : p ∈ s.printed) :
    1 ≤ p ∧ p ≤ cfg.count ∧ dial p = true := by
  have h1 := h.openPorts_perm_served.subset (h.openPorts_perm.2.subset hp)
  rw [List.mem_filter] at h1
  have := (mem_issued _ _).mp (h.served_mem p h1.1)
  exact ⟨this.1, this.2, h1.2⟩

theorem Inv.printed_nodup {cfg : Config} {dial : Int → Bool} {s : State}
    (h : Inv cfg dial s) : s.printed.Nodup :=
  (h.openPorts_perm_served.nodup_iff.mpr (h.served_nodup.filter _)).sublist h.openPorts_perm.2

theorem Inv.printed_sorted_lt {cfg : Config} {dial : Int → Bool} {s : State}
    (h : Inv cfg dial s) : s.printed.Sorted (· < ·) :=
  (h.printed_sorted.and h.printed_nodup).imp
    (fun hab => lt_of_le_of_ne hab.1 hab.2)

theorem Inv.printed_length_le {cfg : Config} {dial : Int → Bool} {s : State}
    (h : Inv cfg dial s) : s.printed.length ≤ cfg.count := by
  have hsub : s.printed ⊆ issued cfg.count := by
    intro p hp
    have := h.printed_mem p hp
    exact (mem_issued _ _).mpr ⟨this.1, this.2.1⟩
  have := (List.subperm_of_subset h.printed_nodup hsub).length_le
  simpa [issued] using this

theorem held_mem_heldAll (ws : List Worker) (w : Worker) (hw : w ∈ ws) (p : Int)
    (hp : p ∈ w.held) : p ∈ heldAll ws := by
  obtain ⟨pre, post, rfl⟩ := List.append_of_mem hw
  rw [heldAll_append, heldAll_cons]
  simp [hp]

/-- Every item a worker holds has been published by the feeder, so it is at least 1. -/
theorem Inv.held_pos {cfg : Config} {dial : Int → Bool} {s : State}
    (h : Inv cfg dial s) (w : Worker) (hw : w ∈ s.workers) (p : Int) (hp : p ∈ w.held) :
    1 ≤ p ∧ p ≤ cfg.count := by
  have h1 : p ∈ ((issued (s.next - 1) : List Int) : Multiset Int) := by
    rw [← h.published_eq, ← h.conserve]
    simp [held_mem_heldAll _ w hw p hp]
  have h2 := (mem_issued _ _).mp (Multiset.mem_coe.mp h1)
  have hl := h.next_le
  exact ⟨h2.1, by omega⟩

theorem Inv.published_pos {cfg : Config} {dial : Int → Bool} {s : State}
    (h : Inv cfg dial s) (p : Int) (hp : p ∈ s.published) : 1 ≤ p ∧ p ≤ cfg.count := by
  rw [h.published_eq] at hp
  have h2 := (mem_issued _ _).mp hp
  have hl := h.next_le
  exact ⟨h2.1, by omega⟩

/-- C22. For every dial outcome and every run of the concurrent scanner (so for every
order in which the results arrive), the ports the concurrent scanner has printed when
main returns are, in the same order, the ports the sequential scanner
`tcp-scanner-slow` prints for the same dial outcome over the ports 1..1024; and the
sequential scanner does return. -/
theorem final_prints_what_slow_prints (dial : Int → Bool) (s : State)
    (h : Reachable scanConfig dial s) (hret : s.pc = MainPc.returned) :
    TcpScannerSlow.scan dial 1024 = some s.printed := by
  rw [TcpScannerSlow.scan_eq, h.inv.report_eq hret]
  rfl

theorem final_prints_what_slow_prints_witness :
    Reachable scanConfig dialMixed (returnedState scanConfig dialMixed mixedItems) ∧
    (returnedState scanConfig dialMixed mixedItems).pc = MainPc.returned ∧
    TcpScannerSlow.scan dialMixed 1024
      = some (returnedState scanConfig dialMixed mixedItems).printed :=
  ⟨reach_returned _ _ _ reach_mixed, rfl,
    final_prints_what_slow_prints dialMixed _ (reach_returned _ _ _ reach_mixed) rfl⟩

/-- C23. In every state of a run of the scanner the ports printed so far are ports of
1..1024, no port appears twice, they are strictly ascending and there are at most
1024 of them; every item the feeder has published is at least 1, so the value a
worker sends is the sentinel 0 exactly when the dial of its item failed, and the
value `probe` of a received item is nonzero exactly when its dial succeeded; and when
main has returned, every port of 1..1024 whose dial succeeds is in the report: the
filter `port != 0` drops no reachable port. -/
theorem report_in_range_no_duplicates (dial : Int → Bool) (s : State)
    (h : Reachable scanConfig dial s) :
    (∀ p ∈ s.printed, 1 ≤ p ∧ p ≤ 1024 ∧ dial p = true) ∧
    s.printed.Nodup ∧ s.printed.Sorted (· < ·) ∧ s.printed.length ≤ 1024 ∧
    (∀ p ∈ s.published, 1 ≤ p ∧ p ≠ 0) ∧
    (∀ p v, Worker.send p v ∈ s.workers → p ≠ 0 ∧ (v = 0 ↔ dial p = false) ∧
      (v ≠ 0 → v = p)) ∧
    (∀ p ∈ s.served, p ≠ 0 ∧ (probe dial p ≠ 0 ↔ dial p = true)) ∧
    (s.pc = MainPc.returned →
      ∀ p : Int, 1 ≤ p → p ≤ 1024 → dial p = true → p ∈ s.printed) := by
  have hi := h.inv
  refine ⟨?_, hi.printed_nodup, hi.printed_sorted_lt, hi.printed_length_le, ?_, ?_, ?_, ?_⟩
  · intro p hp
    have := hi.printed_mem p hp
    exact ⟨this.1, by simpa [scanConfig] using this.2.1, this.2.2⟩
  · intro p hp
    have := hi.published_pos p hp
    omega
  · intro p v hw
    have hpos := hi.held_pos _ hw p (by simp [Worker.held])
    have hv := hi.sends p v hw
    have hp0 : p ≠ 0 := by omega
    subst hv
    by_cases hd : dial p = true <;> simp [probe, hd, hp0]
  · intro p hp
    have := (mem_issued _ _).mp (hi.served_mem p hp)
    have hp0 : p ≠ 0 := by omega
    by_cases hd : dial p = true <;> simp [probe, hd, hp0]
  · intro hret p h1 h2 hd
    rw [hi.report_eq hret, List.mem_filter]
    exact ⟨(mem_issued _ _).mpr ⟨h1, by simpa [scanConfig] using h2⟩, by simpa using hd⟩

theorem report_in_range_no_duplicates_witness :
    Reachable scanConfig dialMixed (returnedState scanConfig dialMixed mixedItems) ∧
    (returnedState scanConfig dialMixed mixedItems).printed = [1, 3, 7] ∧
    (returnedState scanConfig dialMixed mixedItems).printed.Sorted (· < ·) :=
  ⟨reach_returned _ _ _ reach_mixed,
    by rw [returnedState, mixed_order]; decide,
    (report_in_range_no_duplicates dialMixed _ (reach_returned _ _ _ reach_mixed)).2.2.1⟩

end TcpScannerFinal

/-! ## Theorems about `ch2/echo-server`, `ch4/simple_router` and `ch2/io-example` -/

namespace EchoServer

theorem readInto_length (b data : List Nat) (h : data.length ≤ b.length) :
    (readInto b data).length = b.length := by
  simp [readInto]
  omega

theorem readInto_take (b data : List Nat) (h : data.length ≤ b.length) :
    (readInto b data).take data.length = data := by
  have h1 : (data ++ b.drop data.length).length = b.length := by
    simp
    omega
  rw [readInto, ← h1, List.take_length, List.take_left']
  rfl

/-- A run of successful reads whose writes succeed: every chunk is written back. -/
theorem echoLoop_chunks (writeOk : Nat → Bool) (rest : List ReadResult) :
    ∀ (chunks : List (List Nat)) (b : List Nat) (ws : List (List Nat)),
      b.length = 512 → (∀ c ∈ chunks, c.length ≤ 512) →
      (∀ k, k < chunks.length → writeOk (ws.length + k) = true) →
      ∃ b2 : List Nat, b2.length = 512 ∧
        echoLoop writeOk (chunks.map ReadResult.ok ++ rest) b ws
          = echoLoop writeOk rest b2 (ws ++ chunks) := by
  intro chunks
  induction chunks with
  | nil =>
    intro b ws hb _ _
    exact ⟨b, hb, by simp⟩
  | cons c cs ih =>
    intro b ws hb hlen hw
    have hc : c.length ≤ b.length := by
      rw [hb]
      exact hlen c (List.mem_cons_self _ _)
    have hw0 : writeOk ws.length = true := by simpa using hw 0 (by simp)
    obtain ⟨b2, hb2, heq⟩ := ih (readInto b c) (ws ++ [c])
      (by rw [readInto_length b c hc, hb])
      (fun d hd => hlen d (List.mem_cons_of_mem _ hd))
      (fun k hk => by
        have := hw (k + 1) (by simpa using hk)
        simpa [Nat.add_assoc, Nat.add_comm 1 k] using this)
    refine ⟨b2, hb2, ?_⟩
    simp only [List.map_cons, List.cons_append, echoLoop, hc, if_true, hw0,
      readInto_take b c hc]
    simpa [List.append_assoc] using heq

/-- C21. Function `echo` echoes received data.  Let the first reads be successful and
deliver the chunks `chunks` (each fits the 512-byte buffer), and let the writes of
these chunks succeed.  Then the calls of `conn.Write` made are exactly one per read,
each with exactly the bytes of its read, in the same order, and nothing else:
when the next read returns `io.EOF` or another error the loop ends, `echo` returns and
nothing more is written whatever would follow; while no further read has returned the
handler waits in `conn.Read`; and when a further write fails the process ends right
after that call. -/
theorem echo_writes_back_each_read (writeOk : Nat → Bool) (chunks : List (List Nat))
    (hlen : ∀ c ∈ chunks, c.length ≤ 512)
    (hw : ∀ k, k < chunks.length → writeOk k = true) :
    (∀ (stop : ReadResult) (rest : List ReadResult), stop.isOk = false →
      echo writeOk (chunks.map ReadResult.ok ++ stop :: rest)
        = { writes := chunks, exit := Exit.returned }) ∧
    echo writeOk (chunks.map ReadResult.ok) = { writes := chunks, exit := Exit.reading } ∧
    (∀ (c : List Nat) (rest : List ReadResult), c.length ≤ 512 →
      writeOk chunks.length = false →
      echo writeOk (chunks.map ReadResult.ok ++ ReadResult.ok c :: rest)
        = { writes := chunks ++ [c], exit := Exit.fatal }) := by
  have key : ∀ rest : List ReadResult, ∃ b2 : List Nat, b2.length = 512 ∧
      echo writeOk (chunks.map ReadResult.ok ++ rest) = echoLoop writeOk rest b2 chunks := by
    intro rest
    obtain ⟨b2, hb2, heq⟩ := echoLoop_chunks writeOk rest chunks (List.replicate 512 0) []
      (List.length_replicate _ _) hlen
      (fun k hk => by rw [List.length_nil, Nat.zero_add]; exact hw k hk)
    exact ⟨b2, hb2, by unfold echo; rw [heq, List.nil_append]⟩
  refine ⟨?_, ?_, ?_⟩
  · intro stop rest hstop
    obtain ⟨b2, -, heq⟩ := key (stop :: rest)
    rw [heq]
    cases stop with
    | ok d => simp [ReadResult.isOk] at hstop
    | eof d => rfl
    | fail d => rfl
  · obtain ⟨b2, -, heq⟩ := key []
    rw [List.append_nil] at heq
    rw [heq]
    rfl
  · intro c rest hc hwf
    obtain ⟨b2, hb2, heq⟩ := key (ReadResult.ok c :: rest)
    have hc2 : c.length ≤ b2.length := by rw [hb2]; exact hc
    rw [heq]
    simp only [echoLoop, hc2, if_true, hwf, Bool.false_eq_true, if_false,
      readInto_take b2 c hc2]

theorem echo_writes_back_each_read_witness :
    echo (fun _ => true)
        [ReadResult.ok [104, 105], ReadResult.ok [33], ReadResult.eof [], ReadResult.ok [7]]
      = { writes := [[104, 105], [33]], exit := Exit.returned } :=
  (echo_writes_back_each_read (fun _ => true) [[104, 105], [33]] (by decide)
    (fun _ _ => rfl)).1 (ReadResult.eof []) [ReadResult.ok [7]] rfl

end EchoServer

namespace SimpleRouter

/-- C24. Method `ServeHTTP` writes "Executing /a", "Executing /b" or "Executing /c"
to its response writer (the call `fmt.Fprint`) when the request path is exactly "/a",
"/b" or "/c", and for every other path replies with the message "404 Not Found" and
the status code 404 (the call `http.Error`); what the handler does depends only on the
request path, not on the method, the query or the body of the request. -/
theorem router_response_by_path (req : Request) :
    (req.path = "/a" → serveHTTP req = Call.fprint "Executing /a") ∧
    (req.path = "/b" → serveHTTP req = Call.fprint "Executing /b") ∧
    (req.path = "/c" → serveHTTP req = Call.fprint "Executing /c") ∧
    (req.path ≠ "/a" → req.path ≠ "/b" → req.path ≠ "/c" →
      serveHTTP req = Call.error "404 Not Found" 404) ∧
    (∀ other : Request, other.path = req.path → serveHTTP other = serveHTTP req) := by
  refine ⟨?_, ?_, ?_, ?_, ?_⟩
  · intro h
    simp [serveHTTP, h]
  · intro h
    simp [serveHTTP, h]
  · intro h
    simp [serveHTTP, h]
  · intro ha hb hc
    unfold serveHTTP
    split <;> first | rfl | contradiction
  · intro other h
    simp [serveHTTP, h]

end SimpleRouter

namespace IoExample

theorem io_readInto_eq (data : List Nat) (n : Nat) (h : data.length ≤ n) :
    readInto (List.replicate n 0) data = data ++ List.replicate (n - data.length) 0 := by
  have h1 : (data ++ List.replicate (n - data.length) 0).length ≤ n := by
    rw [List.length_append, List.length_replicate]
    omega
  simp only [readInto, List.drop_replicate, List.length_replicate]
  exact List.take_of_length_le h1

/-- C25. Function `readAndWrite` hands the writer the whole 4096-byte buffer whatever
the number of bytes the reader returned: after a successful read of `s ≤ 4096` bytes
the bytes passed to `Write` are the `s` bytes read followed by `4096 - s` zero bytes,
the program reports `s` bytes read and, when the write succeeds, 4096 bytes written. -/
theorem readAndWrite_writes_whole_buffer (data : List Nat) (writeOk : Bool)
    (hs : data.length ≤ 4096) :
    readAndWrite { data := data, ok := true } true
      = [Event.promptIn, Event.reportRead data.length, Event.promptOut,
          Event.write (data ++ List.replicate (4096 - data.length) 0),
          Event.reportWrote 4096] ∧
    (data ++ List.replicate (4096 - data.length) 0).length = 4096 ∧
    Event.write (data ++ List.replicate (4096 - data.length) 0)
      ∈ readAndWrite { data := data, ok := true } writeOk := by
  have h1 : (data ++ List.replicate (4096 - data.length) 0).length = 4096 := by
    rw [List.length_append, List.length_replicate]
    omega
  have hin := io_readInto_eq data 4096 hs
  refine ⟨?_, h1, ?_⟩
  · simp only [readAndWrite, hin, h1, Bool.true_eq_false, if_false]
  · cases writeOk <;>
      simp only [readAndWrite, hin, Bool.true_eq_false, if_false, if_true] <;>
      exact List.mem_cons_of_mem _ (List.mem_cons_of_mem _ (List.mem_cons_of_mem _
        (List.mem_cons_self _ _)))

theorem readAndWrite_writes_whole_buffer_witness :
    readAndWrite { data := [104, 105, 10], ok := true } true
      = [Event.promptIn, Event.reportRead 3, Event.promptOut,
          Event.write ([104, 105, 10] ++ List.replicate 4093 0),
          Event.reportWrote 4096] :=
  (readAndWrite_writes_whole_buffer [104, 105, 10] true (by decide)).1

end IoExample
